import Mathlib

/-!
Verification development for the easy-server library (Python).

The definitions below are a shallow embedding of the code in
`easy_server/_server_file.py`, `easy_server/_vault_file.py` and
`easy_server/_server.py`, starting from the point where the YAML text has
been parsed into a typed document.  External libraries (YAML parsing,
the jsonschema engine, the easy_vault encryption backend, keyring) are out
of scope; the structural constraints the fixed JSON schema imposes on a
parsed document are embedded directly (`structOk`), and the free-text part
of the jsonschema validation message is abstracted while the exception
class raised for it is kept exact.

Python dicts preserve insertion order, so mappings are embedded as
association lists; `lookupA` is dict lookup.  Python recursion depth is
made explicit with a `fuel` parameter: a call tree deeper than `fuel`
yields the `noFuel` outcome, which models non-termination / stack
exhaustion of the unbounded Python recursion.
-/

namespace EasyServer

/-- Single-quote character, used to embed the quoting that the Python
`format` templates and `repr` apply to nicknames and paths in messages. -/
def sq : String := (Char.ofNat 39).toString

/-- Model of Python `repr` on a string as used in the messages of
`_server_file.py` (the nicknames and paths involved contain no escapes). -/
def pyRepr (s : String) : String := sq ++ s ++ sq

/-- Arbitrary structured YAML-ish value (for `user_defined` portions and
vault secret values at the pure-value level).  An object is encoded as a
cons-list of key/value fields in insertion order (`objNil` / `objCons`),
which is the same data as a list-of-pairs object but avoids a nested
inductive. -/
inductive PTree where
  | str : String → PTree
  | objNil : PTree
  | objCons : String → PTree → PTree → PTree
deriving DecidableEq, Repr

/-- One server item of the `servers` mapping, as typed by
`SERVER_FILE_SCHEMA`: required `description`, optional `contact_name`,
`access_via`, `user_defined`. -/
structure ServerItem where
  description : String
  contact_name : Option String := none
  access_via : Option String := none
  user_defined : Option PTree := none
deriving DecidableEq, Repr

/-- One group item of the `server_groups` mapping: required `description`
and `members`, optional `user_defined`. -/
structure GroupItem where
  description : String
  members : List String
  user_defined : Option PTree := none
deriving DecidableEq, Repr

/-- Association-list lookup, modelling Python dict lookup (first match;
Python dicts cannot hold duplicate keys). -/
def lookupA {α : Type} : List (String × α) → String → Option α
  | [], _ => none
  | (k, v) :: rest, n => if k = n then some v else lookupA rest n

/-- A parsed server file document before `_load_server_file` has applied
defaults and checks.  `none` in an optional field means the top-level key
is absent from the file. -/
structure RawDoc where
  servers : List (String × ServerItem)
  server_groups : Option (List (String × GroupItem)) := none
  default : Option String := none
  vault_file : Option String := none
deriving DecidableEq, Repr

/-- The dict returned by `_load_server_file`: defaults applied and all
checks passed.  `filepath` is the path recorded by `ServerFile.__init__`
and interpolated into query-time error messages. -/
structure Table where
  filepath : String
  servers : List (String × ServerItem)
  server_groups : List (String × GroupItem)
  default : Option String
  vault_file : Option String
deriving DecidableEq, Repr

/-- The exception classes of `_server_file.py`, one constructor per Python
class.  There is no separate class for referential-integrity failures:
the dangling-member and dangling-default checks raise
`ServerFileFormatError`, the same class as schema-format violations. -/
inductive ServerFileError where
  | openError : String → ServerFileError
  | formatError : String → ServerFileError
  | userDefinedFormatError : String → ServerFileError
  | userDefinedSchemaError : String → ServerFileError
  | groupUserDefinedFormatError : String → ServerFileError
  | groupUserDefinedSchemaError : String → ServerFileError
deriving DecidableEq, Repr

/-- The Python class name of a raised `_server_file.py` exception: this is
the "kind" of the error that a caller's `except` clause can distinguish. -/
def sfeKind : ServerFileError → String
  | .openError _ => "ServerFileOpenError"
  | .formatError _ => "ServerFileFormatError"
  | .userDefinedFormatError _ => "ServerFileUserDefinedFormatError"
  | .userDefinedSchemaError _ => "ServerFileUserDefinedSchemaError"
  | .groupUserDefinedFormatError _ => "ServerFileGroupUserDefinedFormatError"
  | .groupUserDefinedSchemaError _ => "ServerFileGroupUserDefinedSchemaError"

/-- Character class of the nickname pattern `^[a-zA-Z0-9_]+$` in
`SERVER_FILE_SCHEMA`. -/
def nickChar (c : Char) : Bool :=
  (valA ≤ c.toNat && c.toNat ≤ valZ) || (valCA ≤ c.toNat && c.toNat ≤ valCZ)
    || (val0 ≤ c.toNat && c.toNat ≤ val9) || c.toNat = valU
where
  valA : Nat := 97
  valZ : Nat := 122
  valCA : Nat := 65
  valCZ : Nat := 90
  val0 : Nat := 48
  val9 : Nat := 57
  valU : Nat := 95

/-- The nickname pattern `^[a-zA-Z0-9_]+$`: one or more word characters
(checked on the character list of the string). -/
def isNickname (s : String) : Bool :=
  !s.data.isEmpty && s.data.all nickChar

/-- The part of the jsonschema validation of `SERVER_FILE_SCHEMA` that is
not already captured by the typing of `RawDoc`: every key of `servers` and
of `server_groups` must match the nickname pattern (the two mappings set
`additionalProperties: false` with only the pattern property allowed). -/
def structOk (doc : RawDoc) : Bool :=
  (doc.servers.all fun kv => isNickname kv.1) &&
  ((doc.server_groups.getD []).all fun kv => isNickname kv.1)

/-- Message of the `ServerFileFormatError` raised when jsonschema
validation fails.  The dotted element path and the validator's free text
come from the external jsonschema library and are abstracted; the leading
text and the exception class are those of `_load_server_file`. -/
def structuralMsg (fp : String) : String :=
  "Invalid format in server file " ++ fp ++ ": Validation failed"

/-- Message of the dangling-default check in `_load_server_file`. -/
def defaultMsg (n fp : String) : String :=
  "Default nickname " ++ sq ++ n ++ sq ++
    " not found in servers or groups in server file " ++ fp

/-- Message of the dangling group member check in `_load_server_file`. -/
def memberMsg (n g fp : String) : String :=
  "Nickname " ++ sq ++ n ++ sq ++ " in server group " ++ sq ++ g ++ sq ++
    " not found in servers or groups in server file " ++ fp

/-- The union `server_nicks + group_nicks` computed by
`_load_server_file` for the dependency checks. -/
def allNicksOf (doc : RawDoc) : List String :=
  doc.servers.map Prod.fst ++ (doc.server_groups.getD []).map Prod.fst

/-- First dangling group-member reference, scanning groups in declared
order and members in declared order, exactly like the final loop of
`_load_server_file`.  Returns `(member, group)` of the first violation. -/
def findDangling (groups : List (String × GroupItem)) (allNicks : List String) :
    Option (String × String) :=
  match groups with
  | [] => none
  | (g, item) :: rest =>
    match item.members.find? (fun m => !allNicks.contains m) with
    | some m => some (m, g)
    | none => findDangling rest allNicks

/-- Embedding of `_load_server_file` (with the optional user-defined
schemas left at their `None` default, so the user-defined validation
blocks are skipped): jsonschema validation, defaulting of the optional
top-level elements, then the dependency checks.  The Python truthiness
test `if default_nick and ...` is embedded as the explicit
non-`None`-and-nonempty condition. -/
def load_server_file (doc : RawDoc) (fp : String) : Except ServerFileError Table :=
  if structOk doc then
    let groups := doc.server_groups.getD []
    let allNicks := allNicksOf doc
    let defaultCheck : Option ServerFileError :=
      match doc.default with
      | some d =>
          if d ≠ "" && !allNicks.contains d then
            some (.formatError (defaultMsg d fp))
          else none
      | none => none
    match defaultCheck with
    | some e => .error e
    | none =>
      match findDangling groups allNicks with
      | some (m, g) => .error (.formatError (memberMsg m g fp))
      | none =>
        .ok ⟨fp, doc.servers, groups, doc.default, doc.vault_file⟩
  else
    .error (.formatError (structuralMsg fp))

/-- The resolved record constructed by `Server.__init__` from a server
item and an optional secrets item. -/
structure ServerRec where
  nickname : String
  description : String
  contact_name : Option String
  access_via : Option String
  user_defined : Option PTree
  secrets : Option PTree
deriving DecidableEq, Repr

/-- Constructor call `Server(nickname, server_dict, secrets_dict)`. -/
def mkServer (n : String) (item : ServerItem) (secrets : Option PTree) : ServerRec :=
  ⟨n, item.description, item.contact_name, item.access_via, item.user_defined, secrets⟩

/-- The vault binding at the pure-value level: the `secrets` mapping of a
loaded vault file (`VaultFile._secrets`), values as trees. -/
def VaultSecrets : Type := List (String × PTree)

/-- Message of the `KeyError` raised by `ServerFile.get_server` (the
`{!r}` conversions become `repr`-quoted strings). -/
def getServerMsg (n fp : String) : String :=
  "Server with nickname " ++ pyRepr n ++ " not found in server file " ++ pyRepr fp

/-- Message of the `KeyError` raised by `ServerFile.list_servers`. -/
def listServersMsg (n fp : String) : String :=
  "Server or server group with nickname " ++ pyRepr n ++
    " not found in server definition file " ++ pyRepr fp

/-- Embedding of `ServerFile.get_server`: dict lookup in the server table
(raising `KeyError` with the documented message when absent), then the
vault join: when a vault is bound, `VaultFile.get_secrets` is attempted
and its `KeyError` (nickname absent from the vault) is swallowed into
`None`; with no vault bound, secrets is `None`.  `get_secrets` returns a
deep copy of the stored entry, which at the pure-value level is the entry
itself (the heap-level copy behaviour is modelled separately below). -/
def get_server (t : Table) (vault : Option VaultSecrets) (n : String) :
    Except String ServerRec :=
  match lookupA t.servers n with
  | none => .error (getServerMsg n t.filepath)
  | some item =>
    let secrets : Option PTree :=
      match vault with
      | some vt => lookupA vt n
      | none => none
    .ok (mkServer n item secrets)

/-- Outcome of a recursive query with explicit recursion depth:
a value, a raised `KeyError` with its message, or exhaustion of the
allowed depth (modelling unbounded recursion of the Python code). -/
inductive LRes (α : Type) where
  | ok : α → LRes α
  | keyError : String → LRes α
  | noFuel : LRes α
deriving DecidableEq, Repr

/-- The dedup step of `ServerFile.list_servers`: the parallel
`sd_nick_list` / `sd_list` accumulators extended by one batch of resolved
servers, appending each server only if its nickname is not already
present. -/
def addAll (nicks : List String) (sds : List ServerRec) (batch : List ServerRec) :
    List String × List ServerRec :=
  match batch with
  | [] => (nicks, sds)
  | sd :: rest =>
    if nicks.contains sd.nickname then addAll nicks sds rest
    else addAll (nicks ++ [sd.nickname]) (sds ++ [sd]) rest

mutual

/-- Embedding of `ServerFile.list_servers`.  `fuel` bounds the recursion
depth: each nested `list_servers` call made for a group member runs at one
less fuel, so `noFuel` is the outcome of a call tree deeper than `fuel`
(the Python code has no such bound and would recurse forever on it). -/
def list_servers (t : Table) (vault : Option VaultSecrets) :
    Nat → String → LRes (List ServerRec)
  | 0, _ => .noFuel
  | fuel + 1, n =>
    if (lookupA t.servers n).isSome then
      match get_server t vault n with
      | .ok sd => .ok [sd]
      | .error m => .keyError m
    else
      match lookupA t.server_groups n with
      | some g => membersLoop t vault fuel g.members [] []
      | none => .keyError (listServersMsg n t.filepath)

/-- The member loop of the group branch of `list_servers`: resolve each
member in declared order at the inner recursion depth and merge the
results through the dedup accumulators. -/
def membersLoop (t : Table) (vault : Option VaultSecrets) (fuel : Nat) :
    List String → List String → List ServerRec → LRes (List ServerRec)
  | [], _, sds => .ok sds
  | m :: rest, nicks, sds =>
    match list_servers t vault fuel m with
    | .ok batch =>
      let acc := addAll nicks sds batch
      membersLoop t vault fuel rest acc.1 acc.2
    | .keyError msg => .keyError msg
    | .noFuel => .noFuel

end

/-- Embedding of `ServerFile.list_default_servers`: empty list when the
stored default is `None` (note: `is None`, not falsiness), else
`list_servers` on the stored default. -/
def list_default_servers (t : Table) (vault : Option VaultSecrets) (fuel : Nat) :
    LRes (List ServerRec) :=
  match t.default with
  | none => .ok []
  | some d => list_servers t vault fuel d

/-- Map over the value of a successful outcome. -/
def lresMap {α β : Type} (f : α → β) : LRes α → LRes β
  | .ok l => .ok (f l)
  | .keyError m => .keyError m
  | .noFuel => .noFuel

/-- The nicknames of a resolved outcome. -/
def resNames (r : LRes (List ServerRec)) : LRes (List String) :=
  lresMap (fun l => l.map ServerRec.nickname) r

/-- Spec-side definition (from the wording of the specification):
first-occurrence deduplication against an accumulator of already-seen
nicknames. -/
def specDedupFrom (seen : List String) : List String → List String
  | [] => []
  | x :: rest =>
    if seen.contains x then specDedupFrom seen rest
    else x :: specDedupFrom (seen ++ [x]) rest

/-- Spec-side definition: deduplication by first occurrence with the
accumulator seeded empty. -/
def specDedupFirst (l : List String) : List String := specDedupFrom [] l

mutual

/-- Spec-side definition (from the wording of the specification): the
depth-first, left-to-right leaf expansion of a nickname with duplicates
kept — the raw expansion that `list_servers` is claimed to deduplicate by
first occurrence.  It mirrors the branch and error structure of
`list_servers` at the same recursion depth. -/
def leafNames (t : Table) : Nat → String → LRes (List String)
  | 0, _ => .noFuel
  | fuel + 1, n =>
    if (lookupA t.servers n).isSome then .ok [n]
    else
      match lookupA t.server_groups n with
      | some g => leafLoop t fuel g.members
      | none => .keyError (listServersMsg n t.filepath)

/-- Concatenation of the leaf expansions of a member list, propagating
the first error in member order. -/
def leafLoop (t : Table) (fuel : Nat) : List String → LRes (List String)
  | [] => .ok []
  | m :: rest =>
    match leafNames t fuel m with
    | .ok l =>
      match leafLoop t fuel rest with
      | .ok l2 => .ok (l ++ l2)
      | .keyError msg => .keyError msg
      | .noFuel => .noFuel
    | .keyError msg => .keyError msg
    | .noFuel => .noFuel

end

/-- Edge of the group-membership graph: from a group nickname to one of
its declared members. -/
def stepRel (t : Table) (g m : String) : Prop :=
  ∃ item, lookupA t.server_groups g = some item ∧ m ∈ item.members

/-- The group-membership graph is acyclic: no nickname reaches itself
through one or more membership edges. -/
def AcyclicGroups (t : Table) : Prop :=
  ∀ n, ¬ Relation.TransGen (stepRel t) n n

/-- Referential validity of a table: the dependency checks at the end of
`_load_server_file` pass (default resolves unless falsy; every group
member resolves). -/
def refValid (t : Table) : Bool :=
  let allNicks := t.servers.map Prod.fst ++ t.server_groups.map Prod.fst
  (match t.default with
   | some d => (d == "") || allNicks.contains d
   | none => true) &&
  (findDangling t.server_groups allNicks).isNone

/-- Group nicknames reachable from `n` along membership edges (including
`n` itself when it is a group); the termination measure for acyclic
expansion. -/
def reachSet (t : Table) (n : String) : Set String :=
  {g | (lookupA t.server_groups g).isSome ∧ Relation.ReflTransGen (stepRel t) n g}

/-!
Heap-level model for `VaultFile.get_secrets` (`_vault_file.py`).

The pure-value embedding above cannot express the aliasing consequences
of `return deepcopy(secrets_dict)`, so secrets are also modelled against
an explicit heap: a Python dict is a heap cell (association list of
fields), a value is a scalar string or the address of a cell, and
`deepcopy` recursively materialises fresh cells.  `deepcopy`'s memo table
(which preserves internal sharing and survives cycles) is not modelled:
the recursion carries fuel, so the model is exact for tree-shaped secret
values, which is the only case the claims exercise.
-/

/-- A Python value at the heap level: an (immutable) string scalar or a
reference to a dict cell. -/
inductive PyVal where
  | str : String → PyVal
  | addr : Nat → PyVal
deriving DecidableEq, Repr

/-- A dict object: fields in insertion order, values possibly references. -/
abbrev Cell := List (String × PyVal)

/-- The heap: cells indexed by address (their position). -/
structure Heap where
  cells : List Cell
deriving DecidableEq, Repr

/-- Dereference an address. -/
def Heap.get? (h : Heap) (a : Nat) : Option Cell := h.cells[a]?

/-- Number of allocated cells; fresh addresses start here. -/
def Heap.size (h : Heap) : Nat := h.cells.length

/-- Allocate a new cell, returning the extended heap and its address. -/
def Heap.alloc (h : Heap) (c : Cell) : Heap × Nat :=
  (⟨h.cells ++ [c]⟩, h.cells.length)

/-- Mutate the cell at an address (models item assignment / deletion on a
dict the caller reached). -/
def Heap.setCell (h : Heap) (a : Nat) (c : Cell) : Heap := ⟨h.cells.set a c⟩

mutual

/-- The recursion of `copy.deepcopy` on a value: scalars are returned as
is, a referenced dict is copied field by field into a freshly allocated
cell.  `none` when `fuel` is exhausted or an address dangles. -/
def copyV : Nat → Heap → PyVal → Option (Heap × PyVal)
  | _, h, .str s => some (h, .str s)
  | 0, _, .addr _ => none
  | fuel + 1, h, .addr a =>
    match h.get? a with
    | none => none
    | some cell =>
      match copyCell fuel h cell with
      | none => none
      | some (h1, cell1) =>
        let an := h1.alloc cell1
        some (an.1, .addr an.2)
termination_by fuel _ _ => (fuel, 0)

/-- Deep copy of the fields of one dict, left to right, threading the
heap through the allocations. -/
def copyCell : Nat → Heap → Cell → Option (Heap × Cell)
  | _, h, [] => some (h, [])
  | fuel, h, (k, v) :: rest =>
    match copyV fuel h v with
    | none => none
    | some (h1, v1) =>
      match copyCell fuel h1 rest with
      | none => none
      | some (h2, rest1) => some (h2, (k, v1) :: rest1)
termination_by fuel _ c => (fuel, c.length + 1)

end

mutual

/-- Pure tree read-out of a heap value: the structural content a caller
observes, independent of addresses. -/
def readV : Nat → Heap → PyVal → Option PTree
  | _, _, .str s => some (.str s)
  | 0, _, .addr _ => none
  | fuel + 1, h, .addr a =>
    match h.get? a with
    | none => none
    | some cell => readCell fuel h cell
termination_by fuel _ _ => (fuel, 0)

/-- Tree read-out of the fields of one dict. -/
def readCell : Nat → Heap → Cell → Option PTree
  | _, _, [] => some .objNil
  | fuel, h, (k, v) :: rest =>
    match readV fuel h v with
    | none => none
    | some tv =>
      match readCell fuel h rest with
      | none => none
      | some tr => some (.objCons k tv tr)
termination_by fuel _ c => (fuel, c.length + 1)

end

mutual

/-- Addresses reachable from a value (the mutable footprint a caller
holding the value can touch). -/
def reachV : Nat → Heap → PyVal → Option (List Nat)
  | _, _, .str _ => some []
  | 0, _, .addr _ => none
  | fuel + 1, h, .addr a =>
    match h.get? a with
    | none => none
    | some cell =>
      match reachCell fuel h cell with
      | none => none
      | some r => some (a :: r)
termination_by fuel _ _ => (fuel, 0)

/-- Addresses reachable from the fields of one dict. -/
def reachCell : Nat → Heap → Cell → Option (List Nat)
  | _, _, [] => some []
  | fuel, h, (_k, v) :: rest =>
    match reachV fuel h v with
    | none => none
    | some r1 =>
      match reachCell fuel h rest with
      | none => none
      | some r2 => some (r1 ++ r2)
termination_by fuel _ c => (fuel, c.length + 1)

end

/-- Outcome of the heap-level `get_secrets`: the heap after the copy and
the returned (freshly copied) value, or the raised `KeyError`, or fuel
exhaustion. -/
inductive GSRes where
  | ok : Heap → PyVal → GSRes
  | keyError : String → GSRes
  | noFuel : GSRes
deriving DecidableEq, Repr

/-- The vault binding's state: file path, heap, and the `secrets` mapping
(`VaultFile._secrets`), whose values live in the heap. -/
structure VaultState where
  filepath : String
  heap : Heap
  secrets : List (String × PyVal)
deriving DecidableEq, Repr

/-- Message of the `KeyError` raised by `VaultFile.get_secrets` (plain
`{n}` interpolation, no `repr` quoting in this message). -/
def vaultKeyErrorMsg (n fp : String) : String :=
  "Server with nickname " ++ n ++ " not found in vault file " ++ fp

/-- Embedding of `VaultFile.get_secrets`: dict lookup in the internal
`secrets` table (raising `KeyError` with the documented message when the
nickname is absent), then `deepcopy` of the stored entry.  The internal
table itself is not changed — only fresh cells are allocated. -/
def get_secrets (vs : VaultState) (fuel : Nat) (n : String) : GSRes :=
  match lookupA vs.secrets n with
  | none => .keyError (vaultKeyErrorMsg n vs.filepath)
  | some v =>
    match copyV fuel vs.heap v with
    | none => .noFuel
    | some (h1, v1) => .ok h1 v1

/-- The dangling-default check of `_load_server_file` passes (no error is
raised for the default): the default is absent, falsy, or present in the
nickname union. -/
def defaultOkB (doc : RawDoc) : Bool :=
  match doc.default with
  | some d => (d == "") || (allNicksOf doc).contains d
  | none => true

/-- The dangling-member check of `_load_server_file` passes. -/
def membersOkB (doc : RawDoc) : Bool :=
  (findDangling (doc.server_groups.getD []) (allNicksOf doc)).isNone

/-!
Concrete fixtures used by counterexamples and witnesses.
-/

/-- A server item carrying only the required `description`. -/
def srvItem (d : String) : ServerItem := { description := d }

/-- A group item with the given members. -/
def grpItem (d : String) (ms : List String) : GroupItem :=
  { description := d, members := ms }

/-- File path used for the concrete fixtures. -/
def exPath : String := "/tmp/server.yml"

/-- The table of the dedup example of the specification: groups
`grp1 = [srv1]` and `grp2 = [grp1, srv1, srv2]`. -/
def exTable : Table :=
  { filepath := exPath
    servers := [("srv1", srvItem "d1"), ("srv2", srvItem "d2")]
    server_groups :=
      [("grp1", grpItem "g1" ["srv1"]),
       ("grp2", grpItem "g2" ["grp1", "srv1", "srv2"])]
    default := none
    vault_file := none }

/-- A table containing a self-including group `g`. -/
def cycTable : Table :=
  { filepath := exPath
    servers := []
    server_groups := [("g", grpItem "g" ["g"])]
    default := none
    vault_file := none }

/-- A document whose group `g` references the nonexistent nickname `zz`. -/
def danglingDoc : RawDoc :=
  { servers := [("srv1", srvItem "d1")]
    server_groups := some [("g", grpItem "g" ["zz"])] }

/-- A document violating the structural schema: the server key contains a
space, rejected by the nickname pattern. -/
def badKeyDoc : RawDoc :=
  { servers := [("bad key", srvItem "d1")] }

/-- A document in which nickname `x` is both a server and a group. -/
def collideDoc : RawDoc :=
  { servers := [("x", srvItem "d1")]
    server_groups := some [("x", grpItem "g" [])] }

/-- A document whose `default` key is present with the empty string. -/
def emptyDefaultDoc : RawDoc :=
  { servers := [("srv1", srvItem "d1")]
    default := some "" }

/-- A vault state with one secrets entry `srv1 = {foo: bar}`. -/
def exVault : VaultState :=
  { filepath := "/tmp/vault.yml"
    heap := ⟨[[("foo", .str "bar")]]⟩
    secrets := [("srv1", .addr 0)] }

/-- The example table with `grp2` configured as default. -/
def exTableDef : Table := { exTable with default := some "grp2" }

/-- A document holding only an (empty) `servers` mapping. -/
def emptyServersDoc : RawDoc := { servers := [] }

/-- The tree value `{foo: bar}`. -/
def fooBarTree : PTree := .objCons "foo" (.str "bar") .objNil

/-- A pure-value vault table with a secret only for `srv1`. -/
def exSecrets : VaultSecrets := [("srv1", fooBarTree)]

/-- A document whose `default` references a nonexistent nickname. -/
def badDefaultDoc : RawDoc :=
  { servers := [("srv1", srvItem "d1")]
    default := some "nope" }

/-- A referentially valid, group-free (hence trivially acyclic) table. -/
def flatTable : Table :=
  { filepath := exPath
    servers := [("srv1", srvItem "d1")]
    server_groups := []
    default := none
    vault_file := none }

/-- The table that loading `collideDoc` produces. -/
def collideTable : Table :=
  { filepath := exPath
    servers := [("x", srvItem "d1")]
    server_groups := [("x", grpItem "g" [])]
    default := none
    vault_file := none }

/-!
Theorems.  General lemmas about the embedding come first, then one
theorem per claim (with its witness or counterexample where applicable).
-/

/-- The dangling-default check produces no error exactly when the default
is absent, falsy, or present in the nickname union. -/
theorem default_check_none (doc : RawDoc) (fp : String)
    (h2 : defaultOkB doc = true) :
    (match doc.default with
      | some d =>
          if decide ¬d = "" && !(allNicksOf doc).contains d then
            some (ServerFileError.formatError (defaultMsg d fp))
          else none
      | none => none) = none := by
  cases hd : doc.default with
  | none => rfl
  | some d =>
    have h2' := h2
    unfold defaultOkB at h2'
    rw [hd] at h2'
    simp only [Bool.or_eq_true, beq_iff_eq] at h2'
    rcases h2' with h2' | h2'
    · simp [h2']
    · have hm : d ∈ allNicksOf doc := List.mem_of_elem_eq_true h2'
      simp [hm]

/-- A successful `find?` over the members of a group yields a member
failing the membership test. -/
theorem findDangling_some (groups : List (String × GroupItem))
    (nicks : List String) (m g : String)
    (h : findDangling groups nicks = some (m, g)) :
    ∃ item, (g, item) ∈ groups ∧ m ∈ item.members ∧
      nicks.contains m = false := by
  induction groups with
  | nil => simp [findDangling] at h
  | cons p rest ih =>
    cases p with
    | mk g0 item0 =>
      simp only [findDangling] at h
      cases hf : item0.members.find? (fun m => !nicks.contains m) with
      | some m0 =>
        rw [hf] at h
        injection h with h
        injection h with hm hg
        subst hm
        subst hg
        refine ⟨item0, List.mem_cons_self _ _, List.mem_of_find?_eq_some hf, ?_⟩
        have := List.find?_some hf
        simpa using this
      | none =>
        rw [hf] at h
        obtain ⟨item, hmem, hm, hc⟩ := ih h
        exact ⟨item, List.mem_cons_of_mem _ hmem, hm, hc⟩

/-- When every member of every group passes the membership test, the scan
finds nothing. -/
theorem findDangling_eq_none (groups : List (String × GroupItem))
    (nicks : List String)
    (h : ∀ p ∈ groups, ∀ m ∈ p.2.members, nicks.contains m = true) :
    findDangling groups nicks = none := by
  induction groups with
  | nil => rfl
  | cons p rest ih =>
    cases p with
    | mk g0 item0 =>
      simp only [findDangling]
      have hf : item0.members.find? (fun m => !nicks.contains m) = none := by
        rw [List.find?_eq_none]
        intro m hm
        have hmem : m ∈ nicks :=
          List.mem_of_elem_eq_true (h (g0, item0) (List.mem_cons_self _ _) m hm)
        simp [hmem]
      rw [hf]
      exact ih (fun p hp => h p (List.mem_cons_of_mem _ hp))

/-- A successful load: when the structural validation and both dependency
checks pass, `_load_server_file` returns the defaulted table — note that
no condition relates server and group nicknames to each other. -/
theorem load_success (doc : RawDoc) (fp : String)
    (h1 : structOk doc = true) (h2 : defaultOkB doc = true)
    (h3 : membersOkB doc = true) :
    load_server_file doc fp =
      .ok ⟨fp, doc.servers, doc.server_groups.getD [], doc.default,
           doc.vault_file⟩ := by
  unfold load_server_file
  rw [h1]
  simp only [if_true]
  rw [default_check_none doc fp h2]
  have h3' := h3
  unfold membersOkB at h3'
  rw [Option.isNone_iff_eq_none] at h3'
  rw [h3']

/-- When the scan finds nothing, every member of every group passes the
membership test. -/
theorem findDangling_none_all (groups : List (String × GroupItem))
    (nicks : List String) (h : findDangling groups nicks = none) :
    ∀ p ∈ groups, ∀ m ∈ p.2.members, nicks.contains m = true := by
  induction groups with
  | nil =>
    intro p hp
    simp at hp
  | cons q rest ih =>
    cases q with
    | mk g0 item0 =>
      simp only [findDangling] at h
      cases hf : item0.members.find? (fun m => !nicks.contains m) with
      | some m0 =>
        rw [hf] at h
        exact absurd h (by simp)
      | none =>
        rw [hf] at h
        intro p hp m hm
        rcases List.mem_cons.mp hp with hp | hp
        · subst hp
          have := List.find?_eq_none.mp hf m hm
          simpa using this
        · exact ih h p hp m hm

/-- Keys matching the nickname pattern are nonempty, so the empty string
never hits an entry of a schema-valid mapping. -/
theorem lookupA_empty_eq_none {α : Type} (l : List (String × α))
    (h : l.all (fun kv => isNickname kv.1) = true) : lookupA l "" = none := by
  induction l with
  | nil => rfl
  | cons kv rest ih =>
    simp only [List.all_cons, Bool.and_eq_true] at h
    have hk : kv.1 ≠ "" := by
      intro he
      rw [he] at h
      exact absurd h.1 (by decide)
    cases kv with
    | mk k v =>
      simp only [lookupA]
      rw [if_neg hk]
      exact ih h.2

/-- Claim C9: `list_default_servers` returns the empty list when no
default is configured, and otherwise is exactly `list_servers` applied to
the configured default (same records, same order, same recursion
budget). -/
theorem default_servers_delegation :
    ∀ (t : Table) (v : Option VaultSecrets) (fuel : Nat),
      (t.default = none → list_default_servers t v fuel = .ok []) ∧
      (∀ d, t.default = some d →
        list_default_servers t v fuel = list_servers t v fuel d) := by
  intro t v fuel
  constructor
  · intro h
    simp [list_default_servers, h]
  · intro d h
    simp [list_default_servers, h]

/-- Witness for C9 on the concrete fixtures (no default configured, and
default `grp2` configured). -/
theorem default_servers_delegation_witness :
    list_default_servers exTable none 3 = .ok [] ∧
    list_default_servers exTableDef none 3 = list_servers exTableDef none 3 "grp2" :=
  ⟨(default_servers_delegation exTable none 3).1 rfl,
   (default_servers_delegation exTableDef none 3).2 "grp2" rfl⟩

/-- Claim C6: a definition file consisting of only a `servers` mapping
(no `server_groups`, `default` or `vault_file` keys) loads successfully
into a table with empty groups, null default and null vault file. -/
theorem minimal_doc_defaults :
    ∀ (doc : RawDoc) (fp : String),
      doc.server_groups = none → doc.default = none → doc.vault_file = none →
      structOk doc = true →
      load_server_file doc fp = .ok ⟨fp, doc.servers, [], none, none⟩ := by
  intro doc fp hg hd hv hs
  have hdef : defaultOkB doc = true := by
    unfold defaultOkB
    rw [hd]
  have hmem : membersOkB doc = true := by
    unfold membersOkB
    rw [hg]
    rfl
  have := load_success doc fp hs hdef hmem
  rw [this, hg, hd, hv]
  rfl

/-- Witness for C6: the file `servers: {}` of the specification. -/
theorem minimal_doc_defaults_witness :
    load_server_file emptyServersDoc exPath = .ok ⟨exPath, [], [], none, none⟩ :=
  minimal_doc_defaults emptyServersDoc exPath rfl rfl rfl (by decide)

/-- Claim C3: for a nickname present in the server table, the `secrets`
field of the record returned by `get_server` is the vault entry when a
vault is bound and has one, `None` when the bound vault lacks an entry
(the `KeyError` of `get_secrets` is swallowed exactly there), and `None`
when no vault is bound. -/
theorem get_server_secrets_join :
    ∀ (t : Table) (n : String) (item : ServerItem),
      lookupA t.servers n = some item →
      (∀ (vt : VaultSecrets) (s : PTree), lookupA vt n = some s →
        ∃ r, get_server t (some vt) n = .ok r ∧ r.secrets = some s) ∧
      (∀ vt : VaultSecrets, lookupA vt n = none →
        ∃ r, get_server t (some vt) n = .ok r ∧ r.secrets = none) ∧
      (∃ r, get_server t none n = .ok r ∧ r.secrets = none) := by
  intro t n item hs
  refine ⟨?_, ?_, ?_⟩
  · intro vt s hvt
    exact ⟨mkServer n item (some s), by simp [get_server, hs, hvt], rfl⟩
  · intro vt hvt
    exact ⟨mkServer n item none, by simp [get_server, hs, hvt], rfl⟩
  · exact ⟨mkServer n item none, by simp [get_server, hs], rfl⟩

/-- Witness for C3: vault entry present for `srv1`, vault bound but with
no entry for `srv2`, and no vault bound at all. -/
theorem get_server_secrets_join_witness :
    (∃ r, get_server exTable (some exSecrets) "srv1" = .ok r ∧
      r.secrets = some fooBarTree) ∧
    (∃ r, get_server exTable (some exSecrets) "srv2" = .ok r ∧
      r.secrets = none) ∧
    (∃ r, get_server exTable none "srv1" = .ok r ∧ r.secrets = none) :=
  ⟨(get_server_secrets_join exTable "srv1" (srvItem "d1") rfl).1
      exSecrets fooBarTree rfl,
   ((get_server_secrets_join exTable "srv2" (srvItem "d2") rfl).2.1
      exSecrets rfl),
   (get_server_secrets_join exTable "srv1" (srvItem "d1") rfl).2.2⟩

/-- Claim C7: a nickname absent from the server table makes `get_server`
raise `KeyError` with a message naming the nickname and the file path and
speaking of a "server"; a nickname absent from both tables makes
`list_servers` raise `KeyError` whose message says "server or server
group"; the two messages never coincide. -/
theorem unknown_nickname_messages :
    (∀ (t : Table) (v : Option VaultSecrets) (n : String),
      lookupA t.servers n = none →
      get_server t v n = .error (getServerMsg n t.filepath)) ∧
    (∀ n fp, ∃ a b, getServerMsg n fp = a ++ n ++ b) ∧
    (∀ n fp, ∃ a b, getServerMsg n fp = a ++ fp ++ b) ∧
    (∀ n fp, ∃ b, getServerMsg n fp = "Server with nickname " ++ b) ∧
    (∀ (t : Table) (v : Option VaultSecrets) (fuel : Nat) (n : String),
      lookupA t.servers n = none → lookupA t.server_groups n = none →
      list_servers t v (fuel + 1) n = .keyError (listServersMsg n t.filepath)) ∧
    (∀ n fp, ∃ a b, listServersMsg n fp = a ++ n ++ b) ∧
    (∀ n fp, ∃ a b, listServersMsg n fp = a ++ fp ++ b) ∧
    (∀ n fp, ∃ b, listServersMsg n fp = "Server or server group with nickname " ++ b) ∧
    (∀ n fp, getServerMsg n fp ≠ listServersMsg n fp) := by
  refine ⟨?_, ?_, ?_, ?_, ?_, ?_, ?_, ?_, ?_⟩
  · intro t v n hs
    simp [get_server, hs]
  · intro n fp
    exact ⟨"Server with nickname " ++ sq,
      sq ++ " not found in server file " ++ pyRepr fp,
      by simp [getServerMsg, pyRepr, String.append_assoc]⟩
  · intro n fp
    exact ⟨"Server with nickname " ++ pyRepr n ++ " not found in server file " ++ sq,
      sq, by simp [getServerMsg, pyRepr, String.append_assoc]⟩
  · intro n fp
    exact ⟨pyRepr n ++ " not found in server file " ++ pyRepr fp,
      by simp [getServerMsg, pyRepr, String.append_assoc]⟩
  · intro t v fuel n hs hg
    simp [list_servers, hs, hg]
  · intro n fp
    exact ⟨"Server or server group with nickname " ++ sq,
      sq ++ " not found in server definition file " ++ pyRepr fp,
      by simp [listServersMsg, pyRepr, String.append_assoc]⟩
  · intro n fp
    exact ⟨"Server or server group with nickname " ++ pyRepr n ++
        " not found in server definition file " ++ sq,
      sq, by simp [listServersMsg, pyRepr, String.append_assoc]⟩
  · intro n fp
    exact ⟨pyRepr n ++ " not found in server definition file " ++ pyRepr fp,
      by simp [listServersMsg, pyRepr, String.append_assoc]⟩
  · intro n fp h
    have h' := congrArg String.length h
    simp only [getServerMsg, listServersMsg, pyRepr, String.length_append] at h'
    have e1 : ("Server with nickname ").length = 21 := rfl
    have e2 : (" not found in server file ").length = 26 := rfl
    have e3 : ("Server or server group with nickname ").length = 37 := rfl
    have e4 : (" not found in server definition file ").length = 37 := rfl
    have e5 : sq.length = 1 := rfl
    omega

/-- Witness for C7 at the concrete table: `unknown` is neither a server
nor a group. -/
theorem unknown_nickname_messages_witness :
    get_server exTable none "unknown" =
      .error (getServerMsg "unknown" exPath) ∧
    list_servers exTable none 5 "unknown" =
      .keyError (listServersMsg "unknown" exPath) ∧
    getServerMsg "unknown" exPath ≠ listServersMsg "unknown" exPath :=
  ⟨unknown_nickname_messages.1 exTable none "unknown" rfl,
   unknown_nickname_messages.2.2.2.2.1 exTable none 4 "unknown" rfl rfl,
   unknown_nickname_messages.2.2.2.2.2.2.2.2 "unknown" exPath⟩

/-- Claim C10: a `default` key present with the empty string passes the
load-time referential check (the check is guarded by Python truthiness,
which the empty string fails), so loading succeeds and stores the empty
string; `list_default_servers` then fails at query time with `KeyError`
(the stored default is `""`, not `None`), rather than returning an empty
list or failing at load. -/
theorem empty_default_loophole :
    ∀ (doc : RawDoc) (fp : String) (v : Option VaultSecrets),
      structOk doc = true → membersOkB doc = true → doc.default = some "" →
      load_server_file doc fp =
        .ok ⟨fp, doc.servers, doc.server_groups.getD [], some "", doc.vault_file⟩ ∧
      (∀ fuel,
        list_default_servers
          ⟨fp, doc.servers, doc.server_groups.getD [], some "", doc.vault_file⟩
          v (fuel + 1) = .keyError (listServersMsg "" fp)) := by
  intro doc fp v hs hm hd
  have hdef : defaultOkB doc = true := by
    unfold defaultOkB
    rw [hd]
    rfl
  constructor
  · have := load_success doc fp hs hdef hm
    rw [this, hd]
  · intro fuel
    have hstruct := hs
    unfold structOk at hstruct
    simp only [Bool.and_eq_true] at hstruct
    have hs1 : lookupA doc.servers "" = none :=
      lookupA_empty_eq_none doc.servers hstruct.1
    have hs2 : lookupA (doc.server_groups.getD []) "" = none :=
      lookupA_empty_eq_none (doc.server_groups.getD []) hstruct.2
    simp [list_default_servers, list_servers, hs1, hs2]

/-- Claim C1 (amended): for a structurally valid document, a non-falsy
default absent from the nickname union, or a group member absent from it,
fails the load with `ServerFileFormatError` — the same exception class as
structural schema violations, distinguishable only by message text, not a
distinct error kind — whose message names the missing default
(respectively the group and the missing member), and no table is
returned. -/
theorem dangling_reference_error :
    ∀ (doc : RawDoc) (fp : String),
      structOk doc = true →
      (∀ d, doc.default = some d → d ≠ "" →
        (allNicksOf doc).contains d = false →
        load_server_file doc fp = .error (.formatError (defaultMsg d fp)) ∧
        sfeKind (.formatError (defaultMsg d fp)) = "ServerFileFormatError" ∧
        (∃ a b, defaultMsg d fp = a ++ d ++ b)) ∧
      (defaultOkB doc = true →
        (∃ p ∈ doc.server_groups.getD [], ∃ m ∈ p.2.members,
          (allNicksOf doc).contains m = false) →
        ∃ m g, (allNicksOf doc).contains m = false ∧
          (∃ item, (g, item) ∈ doc.server_groups.getD [] ∧ m ∈ item.members) ∧
          load_server_file doc fp = .error (.formatError (memberMsg m g fp)) ∧
          sfeKind (.formatError (memberMsg m g fp)) = "ServerFileFormatError" ∧
          (∃ a b c, memberMsg m g fp = a ++ m ++ b ++ g ++ c)) := by
  intro doc fp h1
  constructor
  · intro d hd hne hcon
    refine ⟨?_, rfl, ?_⟩
    · unfold load_server_file
      rw [h1]
      simp only [if_true]
      have hdc :
          (match doc.default with
            | some d =>
                if decide ¬d = "" && !(allNicksOf doc).contains d then
                  some (ServerFileError.formatError (defaultMsg d fp))
                else none
            | none => none) =
            some (ServerFileError.formatError (defaultMsg d fp)) := by
        rw [hd]
        have hnm : d ∉ allNicksOf doc := by
          intro hm
          have he : List.elem d (allNicksOf doc) = true :=
            List.elem_eq_true_of_mem hm
          have hcon2 : List.elem d (allNicksOf doc) = false := hcon
          rw [he] at hcon2
          exact Bool.noConfusion hcon2
        simp [hne, hnm]
      rw [hdc]
    · exact ⟨"Default nickname " ++ sq,
        sq ++ " not found in servers or groups in server file " ++ fp,
        by simp [defaultMsg, String.append_assoc]⟩
  · intro h2 hex
    have hne : findDangling (doc.server_groups.getD []) (allNicksOf doc) ≠ none := by
      intro hnone
      obtain ⟨p, hp, m, hm, hc⟩ := hex
      have := findDangling_none_all _ _ hnone p hp m hm
      rw [this] at hc
      exact absurd hc (by decide)
    obtain ⟨mg, hmg⟩ := Option.ne_none_iff_exists.mp hne
    cases mg with
    | mk m g =>
      obtain ⟨item, hitem, hmem, hcon⟩ := findDangling_some _ _ m g hmg.symm
      refine ⟨m, g, hcon, ⟨item, hitem, hmem⟩, ?_, rfl, ?_⟩
      · unfold load_server_file
        rw [h1]
        simp only [if_true]
        rw [default_check_none doc fp h2]
        rw [hmg.symm]
      · exact ⟨"Nickname " ++ sq, sq ++ " in server group " ++ sq,
          sq ++ " not found in servers or groups in server file " ++ fp,
          by simp [memberMsg, String.append_assoc]⟩

/-- Counterexample for C1 as stated: on the concrete dangling-member
document the load error is of kind `ServerFileFormatError`, the very kind
raised for structural schema violations (shown on `badKeyDoc`), so the
referential failure is not reported through a kind distinct from the
format-error kind. -/
theorem dangling_reference_kind_counterexample :
    load_server_file danglingDoc exPath =
      .error (.formatError (memberMsg "zz" "g" exPath)) ∧
    load_server_file badKeyDoc exPath =
      .error (.formatError (structuralMsg exPath)) ∧
    sfeKind (.formatError (memberMsg "zz" "g" exPath)) =
      sfeKind (.formatError (structuralMsg exPath)) := by
  refine ⟨rfl, rfl, rfl⟩

/-- Witness for C1 (amended) at the concrete documents with a dangling
default and a dangling group member. -/
theorem dangling_reference_error_witness :
    (load_server_file badDefaultDoc exPath =
      .error (.formatError (defaultMsg "nope" exPath)) ∧
     sfeKind (.formatError (defaultMsg "nope" exPath)) = "ServerFileFormatError" ∧
     (∃ a b, defaultMsg "nope" exPath = a ++ "nope" ++ b)) ∧
    (∃ m g, (allNicksOf danglingDoc).contains m = false ∧
      (∃ item, (g, item) ∈ danglingDoc.server_groups.getD [] ∧ m ∈ item.members) ∧
      load_server_file danglingDoc exPath =
        .error (.formatError (memberMsg m g exPath)) ∧
      sfeKind (.formatError (memberMsg m g exPath)) = "ServerFileFormatError" ∧
      (∃ a b c, memberMsg m g exPath = a ++ m ++ b ++ g ++ c)) :=
  ⟨(dangling_reference_error badDefaultDoc exPath (by decide)).1 "nope" rfl
      (by decide) (by decide),
   (dangling_reference_error danglingDoc exPath (by decide)).2 rfl
      ⟨("g", grpItem "g" ["zz"]), by decide, "zz", by decide, by decide⟩⟩

/-- Claim C4 (amended): loading performs no cross-namespace nickname
check — the load outcome is fully determined by the structural check and
the two dependency checks, none of which compares server nicknames with
group nicknames; a nickname present in both tables is resolved as the
server by queries (the server table shadows the group table in
`list_servers`). -/
theorem no_namespace_collision_check :
    (∀ (doc : RawDoc) (fp : String),
      structOk doc = true → defaultOkB doc = true → membersOkB doc = true →
      load_server_file doc fp =
        .ok ⟨fp, doc.servers, doc.server_groups.getD [], doc.default,
             doc.vault_file⟩) ∧
    (∀ (t : Table) (v : Option VaultSecrets) (fuel : Nat) (n : String)
      (item : ServerItem),
      lookupA t.servers n = some item →
      list_servers t v (fuel + 1) n =
        .ok [mkServer n item
              (match v with | some vt => lookupA vt n | none => none)]) := by
  constructor
  · exact load_success
  · intro t v fuel n item hs
    simp [list_servers, get_server, hs]

/-- Counterexample for C4 as stated: the document in which nickname `x`
is both a server and a group is not rejected — it loads successfully, and
`x` is afterwards present in both tables. -/
theorem namespace_collision_counterexample :
    load_server_file collideDoc exPath = .ok collideTable ∧
    (lookupA collideTable.servers "x").isSome = true ∧
    (lookupA collideTable.server_groups "x").isSome = true := by
  refine ⟨rfl, rfl, rfl⟩

/-- Witness for C4 (amended) at the colliding document and table. -/
theorem no_namespace_collision_check_witness :
    load_server_file collideDoc exPath =
      .ok ⟨exPath, collideDoc.servers, collideDoc.server_groups.getD [],
           none, none⟩ ∧
    list_servers collideTable none 2 "x" =
      .ok [mkServer "x" (srvItem "d1") none] :=
  ⟨no_namespace_collision_check.1 collideDoc exPath (by decide) rfl rfl,
   no_namespace_collision_check.2 collideTable none 1 "x" (srvItem "d1") rfl⟩

/-- Witness for C10 on a concrete document with `default: ""`. -/
theorem empty_default_loophole_witness :
    load_server_file emptyDefaultDoc exPath =
      .ok ⟨exPath, emptyDefaultDoc.servers, [], some "", none⟩ ∧
    list_default_servers ⟨exPath, emptyDefaultDoc.servers, [], some "", none⟩
      none 4 = .keyError (listServersMsg "" exPath) :=
  ⟨(empty_default_loophole emptyDefaultDoc exPath none (by decide) rfl rfl).1,
   (empty_default_loophole emptyDefaultDoc exPath none (by decide) rfl rfl).2 3⟩

/-- Splitting a first-occurrence dedup over an append: the second part is
deduplicated against the accumulator extended by what the first part
contributed. -/
theorem specDedupFrom_append (L1 : List String) :
    ∀ (s L2 : List String),
      specDedupFrom s (L1 ++ L2) =
        specDedupFrom s L1 ++ specDedupFrom (s ++ specDedupFrom s L1) L2 := by
  induction L1 with
  | nil =>
    intro s L2
    simp [specDedupFrom]
  | cons x L1 ih =>
    intro s L2
    by_cases hx : x ∈ s
    · simp [specDedupFrom, hx, ih]
    · simp [specDedupFrom, hx, ih, List.append_assoc]

/-- Deduplicating a list that was already deduplicated against a smaller
accumulator gives the same result as deduplicating the original list. -/
theorem specDedupFrom_sub (L : List String) :
    ∀ (s s₀ : List String), (∀ x ∈ s₀, x ∈ s) →
      specDedupFrom s (specDedupFrom s₀ L) = specDedupFrom s L := by
  induction L with
  | nil =>
    intro s s₀ _
    simp [specDedupFrom]
  | cons x L ih =>
    intro s s₀ hsub
    by_cases hx0 : x ∈ s₀
    · simp only [specDedupFrom]
      rw [if_pos (by simpa using hx0), if_pos (by simpa using hsub x hx0)]
      exact ih s s₀ hsub
    · by_cases hxs : x ∈ s
      · simp only [specDedupFrom]
        rw [if_neg (by simpa using hx0), if_pos (by simpa using hxs)]
        simp only [specDedupFrom]
        rw [if_pos (by simpa using hxs)]
        refine ih s (s₀ ++ [x]) ?_
        intro y hy
        rcases List.mem_append.mp hy with hy | hy
        · exact hsub y hy
        · simpa using (List.mem_singleton.mp hy) ▸ hxs
      · simp only [specDedupFrom]
        rw [if_neg (by simpa using hx0), if_neg (by simpa using hxs)]
        simp only [specDedupFrom]
        rw [if_neg (by simpa using hxs)]
        congr 1
        refine ih (s ++ [x]) (s₀ ++ [x]) ?_
        intro y hy
        rcases List.mem_append.mp hy with hy | hy
        · exact List.mem_append.mpr (Or.inl (hsub y hy))
        · exact List.mem_append.mpr (Or.inr hy)

/-- The nickname accumulator after merging one batch: the old accumulator
followed by the first occurrences of the batch's new nicknames. -/
theorem addAll_fst (batch : List ServerRec) :
    ∀ (nicks : List String) (sds : List ServerRec),
      (addAll nicks sds batch).1 =
        nicks ++ specDedupFrom nicks (batch.map ServerRec.nickname) := by
  induction batch with
  | nil =>
    intro nicks sds
    simp [addAll, specDedupFrom]
  | cons sd rest ih =>
    intro nicks sds
    by_cases hx : sd.nickname ∈ nicks
    · simp [addAll, specDedupFrom, hx, ih]
    · simp [addAll, specDedupFrom, hx, ih, List.append_assoc]

/-- The two parallel accumulators of `list_servers` stay aligned: the
nicknames of the collected servers are exactly the nickname list. -/
theorem addAll_names (batch : List ServerRec) :
    ∀ (nicks : List String) (sds : List ServerRec),
      sds.map ServerRec.nickname = nicks →
      (addAll nicks sds batch).2.map ServerRec.nickname =
        (addAll nicks sds batch).1 := by
  induction batch with
  | nil =>
    intro nicks sds h
    simpa [addAll] using h
  | cons sd rest ih =>
    intro nicks sds h
    by_cases hx : sd.nickname ∈ nicks
    · simp only [addAll]
      rw [if_pos (by simpa using hx)]
      exact ih nicks sds h
    · simp only [addAll]
      rw [if_neg (by simpa using hx)]
      exact ih (nicks ++ [sd.nickname]) (sds ++ [sd]) (by simp [h])

/-- The member loop of `list_servers` computes the first-occurrence dedup
of the concatenated leaf expansions, relative to the current
accumulator. -/
theorem membersLoop_names (t : Table) (v : Option VaultSecrets) (fuel : Nat)
    (hIH : ∀ m, resNames (list_servers t v fuel m) =
      lresMap specDedupFirst (leafNames t fuel m)) :
    ∀ (ms : List String) (nicks : List String) (sds : List ServerRec),
      sds.map ServerRec.nickname = nicks →
      resNames (membersLoop t v fuel ms nicks sds) =
        (match leafLoop t fuel ms with
         | .ok L => .ok (nicks ++ specDedupFrom nicks L)
         | .keyError m => .keyError m
         | .noFuel => .noFuel) := by
  intro ms
  induction ms with
  | nil =>
    intro nicks sds h
    simp [membersLoop, leafLoop, specDedupFrom, resNames, lresMap, h]
  | cons m rest ih =>
    intro nicks sds h
    have hleaf := hIH m
    cases hls : list_servers t v fuel m with
    | ok batch =>
      rw [hls] at hleaf
      cases hln : leafNames t fuel m with
      | ok Lm =>
        rw [hln] at hleaf
        simp only [resNames, lresMap, LRes.ok.injEq] at hleaf
        simp only [membersLoop, hls]
        rw [ih (addAll nicks sds batch).1 (addAll nicks sds batch).2
          (addAll_names batch nicks sds h)]
        simp only [leafLoop, hln]
        cases hll : leafLoop t fuel rest with
        | ok L2 =>
          simp only [LRes.ok.injEq]
          rw [addAll_fst, hleaf]
          unfold specDedupFirst
          rw [specDedupFrom_sub Lm nicks [] (by simp)]
          rw [specDedupFrom_append]
          simp [List.append_assoc]
        | keyError msg => simp
        | noFuel => simp
      | keyError msg =>
        rw [hln] at hleaf
        simp [resNames, lresMap] at hleaf
      | noFuel =>
        rw [hln] at hleaf
        simp [resNames, lresMap] at hleaf
    | keyError msg =>
      rw [hls] at hleaf
      cases hln : leafNames t fuel m with
      | ok Lm =>
        rw [hln] at hleaf
        simp [resNames, lresMap] at hleaf
      | keyError msg2 =>
        rw [hln] at hleaf
        simp only [resNames, lresMap, LRes.keyError.injEq] at hleaf
        subst hleaf
        simp [membersLoop, hls, leafLoop, hln, resNames, lresMap]
      | noFuel =>
        rw [hln] at hleaf
        simp [resNames, lresMap] at hleaf
    | noFuel =>
      rw [hls] at hleaf
      cases hln : leafNames t fuel m with
      | ok Lm =>
        rw [hln] at hleaf
        simp [resNames, lresMap] at hleaf
      | keyError msg2 =>
        rw [hln] at hleaf
        simp [resNames, lresMap] at hleaf
      | noFuel =>
        simp [membersLoop, hls, leafLoop, hln, resNames, lresMap]

/-- Claim C2: resolving a nickname expands group members depth-first in
declared order and returns the leaf server nicknames deduplicated by
first occurrence (for every table, vault, recursion budget and nickname,
including the error outcomes); in particular, on the fixture with
`grp1 = [srv1]` and `grp2 = [grp1, srv1, srv2]`, resolving `grp2` returns
exactly the records of `srv1` and `srv2` in that order, `srv1` only
once. -/
theorem group_expansion_dedup :
    (∀ (t : Table) (v : Option VaultSecrets) (fuel : Nat) (n : String),
      resNames (list_servers t v fuel n) =
        lresMap specDedupFirst (leafNames t fuel n)) ∧
    list_servers exTable none 3 "grp2" =
      .ok [mkServer "srv1" (srvItem "d1") none,
           mkServer "srv2" (srvItem "d2") none] := by
  constructor
  · intro t v fuel
    induction fuel with
    | zero =>
      intro n
      simp [list_servers, leafNames, resNames, lresMap]
    | succ f ih =>
      intro n
      cases hs : lookupA t.servers n with
      | some item =>
        simp [list_servers, leafNames, hs, get_server, resNames, lresMap,
          mkServer, specDedupFirst, specDedupFrom]
      | none =>
        cases hg : lookupA t.server_groups n with
        | some g =>
          simp only [list_servers, leafNames, hs, Option.isSome_none,
            Bool.false_eq_true, if_false, hg]
          rw [membersLoop_names t v f ih g.members [] [] rfl]
          cases hll : leafLoop t f g.members with
          | ok L => simp [lresMap, specDedupFirst]
          | keyError msg => simp [lresMap]
          | noFuel => simp [lresMap]
        | none =>
          simp [list_servers, leafNames, hs, hg, resNames, lresMap]
  · simp [list_servers, membersLoop, exTable, exPath, srvItem, grpItem,
      lookupA, get_server, addAll, mkServer]

/-- Raising the recursion budget does not change an outcome that was
reached within the budget (fuel only models the call depth, which the
Python code does not bound). -/
theorem list_servers_mono (t : Table) (v : Option VaultSecrets) :
    ∀ fuel : Nat,
      (∀ (n : String) (fuel' : Nat), fuel ≤ fuel' →
        list_servers t v fuel n ≠ .noFuel →
        list_servers t v fuel' n = list_servers t v fuel n) ∧
      (∀ (ms nicks : List String) (sds : List ServerRec) (fuel' : Nat),
        fuel ≤ fuel' →
        membersLoop t v fuel ms nicks sds ≠ .noFuel →
        membersLoop t v fuel' ms nicks sds =
          membersLoop t v fuel ms nicks sds) := by
  intro fuel
  induction fuel with
  | zero =>
    constructor
    · intro n fuel' _ hne
      exact absurd (by simp [list_servers]) hne
    · intro ms
      induction ms with
      | nil =>
        intro nicks sds fuel' _ _
        simp [membersLoop]
      | cons m rest ihm =>
        intro nicks sds fuel' _ hne
        exact absurd (by simp [membersLoop, list_servers]) hne
  | succ f ihf =>
    have hA : ∀ (n : String) (fuel' : Nat), f + 1 ≤ fuel' →
        list_servers t v (f + 1) n ≠ .noFuel →
        list_servers t v fuel' n = list_servers t v (f + 1) n := by
      intro n fuel' hle hne
      obtain ⟨f2, rfl⟩ : ∃ f2, fuel' = f2 + 1 := ⟨fuel' - 1, by omega⟩
      have hle2 : f ≤ f2 := by omega
      cases hs : lookupA t.servers n with
      | some item => simp [list_servers, hs]
      | none =>
        cases hg : lookupA t.server_groups n with
        | some g =>
          have hloop : membersLoop t v f g.members [] [] ≠ .noFuel := by
            intro hcon
            exact hne (by simp [list_servers, hs, hg, hcon])
          have heq := ihf.2 g.members [] [] f2 hle2 hloop
          simp [list_servers, hs, hg, heq]
        | none => simp [list_servers, hs, hg]
    refine ⟨hA, ?_⟩
    intro ms
    induction ms with
    | nil =>
      intro nicks sds fuel' _ _
      simp [membersLoop]
    | cons m rest ihm =>
      intro nicks sds fuel' hle hne
      cases hls : list_servers t v (f + 1) m with
      | ok batch =>
        have h1 := hA m fuel' hle (by rw [hls]; simp)
        rw [hls] at h1
        have hrest : membersLoop t v (f + 1) rest (addAll nicks sds batch).1
            (addAll nicks sds batch).2 ≠ .noFuel := by
          intro hcon
          exact hne (by simp [membersLoop, hls, hcon])
        have h2 := ihm (addAll nicks sds batch).1 (addAll nicks sds batch).2
          fuel' hle hrest
        simp [membersLoop, h1, hls, h2]
      | keyError msg =>
        have h1 := hA m fuel' hle (by rw [hls]; simp)
        rw [hls] at h1
        simp [membersLoop, h1, hls]
      | noFuel =>
        exact absurd (by simp [membersLoop, hls]) hne

/-- A single recursion budget sufficient for every member of a list. -/
theorem fuel_combine (t : Table) (v : Option VaultSecrets) (ms : List String)
    (h : ∀ m ∈ ms, ∃ f, list_servers t v f m ≠ .noFuel) :
    ∃ F, ∀ m ∈ ms, list_servers t v F m ≠ .noFuel := by
  induction ms with
  | nil => exact ⟨0, by simp⟩
  | cons m rest ih =>
    obtain ⟨f1, hf1⟩ := h m (by simp)
    obtain ⟨F, hF⟩ := ih (fun m' hm' => h m' (by simp [hm']))
    refine ⟨max f1 F, ?_⟩
    intro m' hm'
    rcases List.mem_cons.mp hm' with rfl | hm'
    · rw [(list_servers_mono t v f1).1 m' (max f1 F) (le_max_left _ _) hf1]
      exact hf1
    · rw [(list_servers_mono t v F).1 m' (max f1 F) (le_max_right _ _) (hF m' hm')]
      exact hF m' hm'

/-- When every member resolves within the budget, the member loop does
not exhaust the budget either. -/
theorem membersLoop_not_noFuel (t : Table) (v : Option VaultSecrets) (F : Nat)
    (ms : List String) (h : ∀ m ∈ ms, list_servers t v F m ≠ .noFuel) :
    ∀ nicks sds, membersLoop t v F ms nicks sds ≠ .noFuel := by
  induction ms with
  | nil =>
    intro nicks sds
    simp [membersLoop]
  | cons m rest ih =>
    intro nicks sds
    cases hls : list_servers t v F m with
    | ok batch =>
      have := ih (fun m' hm' => h m' (List.mem_cons_of_mem _ hm'))
        (addAll nicks sds batch).1 (addAll nicks sds batch).2
      simp [membersLoop, hls]
      exact this
    | keyError msg => simp [membersLoop, hls]
    | noFuel => exact absurd hls (h m (by simp))

/-- A successful lookup key occurs among the mapping's keys. -/
theorem lookupA_mem_fst {α : Type} {l : List (String × α)} {n : String}
    {v : α} (h : lookupA l n = some v) : n ∈ l.map Prod.fst := by
  induction l with
  | nil => simp [lookupA] at h
  | cons kv rest ih =>
    cases kv with
    | mk k v' =>
      simp only [lookupA] at h
      by_cases hk : k = n
      · simp [hk]
      · rw [if_neg hk] at h
        simp [ih h]

/-- The reachable-group set is finite: it lives inside the group table's
key list. -/
theorem reachSet_finite (t : Table) (n : String) : (reachSet t n).Finite := by
  apply Set.Finite.subset (List.finite_toSet (t.server_groups.map Prod.fst))
  intro g hg
  obtain ⟨item, hitem⟩ := Option.isSome_iff_exists.mp hg.1
  exact lookupA_mem_fst hitem

/-- Following a membership edge cannot enlarge the reachable set. -/
theorem reachSet_mono (t : Table) {n m : String} (hstep : stepRel t n m) :
    reachSet t m ⊆ reachSet t n := by
  intro g hg
  exact ⟨hg.1, Relation.ReflTransGen.head hstep hg.2⟩

/-- In an acyclic graph, stepping from a group to a member strictly
shrinks the reachable-group set (the group itself drops out). -/
theorem reachSet_card_lt (t : Table) {n m : String} (hacy : AcyclicGroups t)
    (hstep : stepRel t n m) (hgrp : (lookupA t.server_groups n).isSome) :
    (reachSet t m).ncard < (reachSet t n).ncard := by
  apply Set.ncard_lt_ncard ?_ (reachSet_finite t n)
  rw [Set.ssubset_iff_of_subset (reachSet_mono t hstep)]
  refine ⟨n, ⟨hgrp, Relation.ReflTransGen.refl⟩, ?_⟩
  intro hn
  exact hacy n (Relation.TransGen.head' hstep hn.2)

/-- On an acyclic table, every nickname resolves within some recursion
budget. -/
theorem list_servers_terminates (t : Table) (v : Option VaultSecrets)
    (hacy : AcyclicGroups t) :
    ∀ n, ∃ fuel, list_servers t v fuel n ≠ .noFuel := by
  have H : ∀ (k : Nat) (n : String), (reachSet t n).ncard ≤ k →
      ∃ fuel, list_servers t v fuel n ≠ .noFuel := by
    intro k
    induction k with
    | zero =>
      intro n hcard
      cases hs : lookupA t.servers n with
      | some item => exact ⟨1, by simp [list_servers, hs, get_server]⟩
      | none =>
        cases hg : lookupA t.server_groups n with
        | some g =>
          exfalso
          have hmem : n ∈ reachSet t n :=
            ⟨by simp [hg], Relation.ReflTransGen.refl⟩
          have hpos : 0 < (reachSet t n).ncard :=
            (Set.ncard_pos (reachSet_finite t n)).mpr ⟨n, hmem⟩
          omega
        | none => exact ⟨1, by simp [list_servers, hs, hg]⟩
    | succ k ih =>
      intro n hcard
      cases hs : lookupA t.servers n with
      | some item => exact ⟨1, by simp [list_servers, hs, get_server]⟩
      | none =>
        cases hg : lookupA t.server_groups n with
        | some g =>
          have hex : ∀ m ∈ g.members, ∃ f, list_servers t v f m ≠ .noFuel := by
            intro m hm
            apply ih m
            have hlt := reachSet_card_lt t hacy ⟨g, hg, hm⟩ (by simp [hg])
            omega
          obtain ⟨F, hF⟩ := fuel_combine t v g.members hex
          refine ⟨F + 1, ?_⟩
          have := membersLoop_not_noFuel t v F g.members hF [] []
          simp [list_servers, hs, hg]
          exact this
        | none => exact ⟨1, by simp [list_servers, hs, hg]⟩
  intro n
  exact H (reachSet t n).ncard n le_rfl

/-- On the self-including group `g` of `cycTable`, the expansion exhausts
every recursion budget: the Python recursion never terminates. -/
theorem cyc_table_diverges :
    ∀ fuel, list_servers cycTable none fuel "g" = .noFuel := by
  intro fuel
  induction fuel with
  | zero => simp [list_servers]
  | succ f ih =>
    have h1 : lookupA cycTable.servers "g" = none := rfl
    have h2 : lookupA cycTable.server_groups "g" = some (grpItem "g" ["g"]) := rfl
    simp [list_servers, h1, h2, membersLoop, ih, grpItem]

/-- Claim C5: on every referentially valid table whose group-membership
graph is acyclic, `list_servers` terminates for every nickname (some
finite recursion depth suffices); and there is no cycle guard: on a table
whose group includes itself, the expansion exhausts every recursion
budget. -/
theorem group_resolution_termination :
    (∀ (t : Table) (v : Option VaultSecrets) (n : String),
      refValid t = true → AcyclicGroups t →
      ∃ fuel, list_servers t v fuel n ≠ .noFuel) ∧
    (∀ fuel, list_servers cycTable none fuel "g" = .noFuel) := by
  constructor
  · intro t v n _ hacy
    exact list_servers_terminates t v hacy n
  · exact cyc_table_diverges

/-- Witness for C5: the group-free table is referentially valid and
acyclic, and resolution of `srv1` terminates; the cyclic table diverges
at a concrete budget. -/
theorem group_resolution_termination_witness :
    (∃ fuel, list_servers flatTable none fuel "srv1" ≠ .noFuel) ∧
    list_servers cycTable none 5 "g" = .noFuel := by
  constructor
  · apply group_resolution_termination.1 flatTable none "srv1" rfl
    intro n h
    have hstep : ∀ a b, ¬ stepRel flatTable a b := by
      intro a b hab
      obtain ⟨item, hit, _⟩ := hab
      simp [flatTable, lookupA] at hit
    cases h with
    | single hs => exact hstep _ _ hs
    | tail h1 hs => exact hstep _ _ hs
  · exact group_resolution_termination.2 5

/-- Dereferencing below the old size is unaffected by appended cells. -/
theorem Heap.get?_append (h : Heap) (ext : List Cell) (a : Nat)
    (ha : a < h.size) : (Heap.mk (h.cells ++ ext)).get? a = h.get? a := by
  unfold Heap.get?
  unfold Heap.size at ha
  rw [List.getElem?_append]
  rw [if_pos ha]

/-- A successful dereference is below the heap size. -/
theorem Heap.lt_size_of_get? {h : Heap} {a : Nat} {c : Cell}
    (hg : h.get? a = some c) : a < h.size := by
  unfold Heap.get? at hg
  rw [List.getElem?_eq_some] at hg
  exact hg.1

/-- Appending cells does not shrink the heap. -/
theorem Heap.size_le_append (h : Heap) (ext : List Cell) :
    h.size ≤ (Heap.mk (h.cells ++ ext)).size := by
  simp [Heap.size]

/-- Mutating a cell keeps the heap size. -/
theorem Heap.size_setCell (h : Heap) (b : Nat) (c : Cell) :
    (h.setCell b c).size = h.size := by
  simp [Heap.setCell, Heap.size]

/-- Mutating one cell leaves every other address unchanged. -/
theorem Heap.get?_setCell_ne (h : Heap) (b : Nat) (c : Cell) (a : Nat)
    (hba : b ≠ a) : (h.setCell b c).get? a = h.get? a := by
  unfold Heap.setCell Heap.get?
  exact List.getElem?_set_ne hba

/-- Field read-out is stable under appending fresh cells (helper at one
budget, given the value-level statement at the same budget). -/
theorem readCell_extend_of (ext : List Cell) (f : Nat)
    (hV : ∀ (h : Heap) (v : PyVal) (tr : PTree), readV f h v = some tr →
      readV f ⟨h.cells ++ ext⟩ v = some tr) :
    ∀ (c : Cell) (h : Heap) (tr : PTree), readCell f h c = some tr →
      readCell f ⟨h.cells ++ ext⟩ c = some tr := by
  intro c
  induction c with
  | nil =>
    intro h tr hr
    simpa [readCell] using hr
  | cons kv rest ihc =>
    intro h tr hr
    obtain ⟨k, v⟩ := kv
    simp only [readCell] at hr ⊢
    cases hrv : readV f h v with
    | none =>
      rw [hrv] at hr
      simp at hr
    | some tv =>
      rw [hrv] at hr
      cases hrc : readCell f h rest with
      | none =>
        rw [hrc] at hr
        simp at hr
      | some trr =>
        rw [hrc] at hr
        rw [hV h v tv hrv, ihc h trr hrc]
        exact hr

/-- Read-out of values and cells is stable under appending fresh cells. -/
theorem read_extend (ext : List Cell) :
    ∀ f : Nat,
      (∀ (h : Heap) (v : PyVal) (tr : PTree), readV f h v = some tr →
        readV f ⟨h.cells ++ ext⟩ v = some tr) ∧
      (∀ (c : Cell) (h : Heap) (tr : PTree), readCell f h c = some tr →
        readCell f ⟨h.cells ++ ext⟩ c = some tr) := by
  intro f
  induction f with
  | zero =>
    have hV : ∀ (h : Heap) (v : PyVal) (tr : PTree), readV 0 h v = some tr →
        readV 0 ⟨h.cells ++ ext⟩ v = some tr := by
      intro h v tr hr
      cases v with
      | str s => simpa [readV] using hr
      | addr a => simp [readV] at hr
    exact ⟨hV, readCell_extend_of ext 0 hV⟩
  | succ f ihf =>
    have hV : ∀ (h : Heap) (v : PyVal) (tr : PTree),
        readV (f + 1) h v = some tr →
        readV (f + 1) ⟨h.cells ++ ext⟩ v = some tr := by
      intro h v tr hr
      cases v with
      | str s => simpa [readV] using hr
      | addr a =>
        simp only [readV] at hr ⊢
        cases hg : h.get? a with
        | none =>
          rw [hg] at hr
          simp at hr
        | some cell =>
          rw [hg] at hr
          rw [Heap.get?_append h ext a (Heap.lt_size_of_get? hg), hg]
          exact ihf.2 cell h tr hr
    exact ⟨hV, readCell_extend_of ext (f + 1) hV⟩

/-- Footprints are stable under appending fresh cells (helper at one
budget). -/
theorem reachCell_extend_of (ext : List Cell) (f : Nat)
    (hV : ∀ (h : Heap) (v : PyVal) (R : List Nat), reachV f h v = some R →
      reachV f ⟨h.cells ++ ext⟩ v = some R) :
    ∀ (c : Cell) (h : Heap) (R : List Nat), reachCell f h c = some R →
      reachCell f ⟨h.cells ++ ext⟩ c = some R := by
  intro c
  induction c with
  | nil =>
    intro h R hr
    simpa [reachCell] using hr
  | cons kv rest ihc =>
    intro h R hr
    obtain ⟨k, v⟩ := kv
    simp only [reachCell] at hr ⊢
    cases hrv : reachV f h v with
    | none =>
      rw [hrv] at hr
      simp at hr
    | some R1 =>
      rw [hrv] at hr
      cases hrc : reachCell f h rest with
      | none =>
        rw [hrc] at hr
        simp at hr
      | some R2 =>
        rw [hrc] at hr
        rw [hV h v R1 hrv, ihc h R2 hrc]
        exact hr

/-- Footprints of values and cells are stable under appending fresh
cells. -/
theorem reach_extend (ext : List Cell) :
    ∀ f : Nat,
      (∀ (h : Heap) (v : PyVal) (R : List Nat), reachV f h v = some R →
        reachV f ⟨h.cells ++ ext⟩ v = some R) ∧
      (∀ (c : Cell) (h : Heap) (R : List Nat), reachCell f h c = some R →
        reachCell f ⟨h.cells ++ ext⟩ c = some R) := by
  intro f
  induction f with
  | zero =>
    have hV : ∀ (h : Heap) (v : PyVal) (R : List Nat), reachV 0 h v = some R →
        reachV 0 ⟨h.cells ++ ext⟩ v = some R := by
      intro h v R hr
      cases v with
      | str s => simpa [reachV] using hr
      | addr a => simp [reachV] at hr
    exact ⟨hV, reachCell_extend_of ext 0 hV⟩
  | succ f ihf =>
    have hV : ∀ (h : Heap) (v : PyVal) (R : List Nat),
        reachV (f + 1) h v = some R →
        reachV (f + 1) ⟨h.cells ++ ext⟩ v = some R := by
      intro h v R hr
      cases v with
      | str s => simpa [reachV] using hr
      | addr a =>
        cases hg : h.get? a with
        | none => simp [reachV, hg] at hr
        | some cell =>
          cases hrc : reachCell f h cell with
          | none => simp [reachV, hg, hrc] at hr
          | some Rc =>
            simp only [reachV, hg, hrc, Option.some.injEq] at hr
            simp only [reachV, Heap.get?_append h ext a (Heap.lt_size_of_get? hg),
              hg, ihf.2 cell h Rc hrc]
            simp [hr]
    exact ⟨hV, reachCell_extend_of ext (f + 1) hV⟩

/-- Every reachable address is an allocated one (helper at one budget). -/
theorem reachCell_bound_of (f : Nat)
    (hV : ∀ (h : Heap) (v : PyVal) (R : List Nat), reachV f h v = some R →
      ∀ a ∈ R, a < h.size) :
    ∀ (c : Cell) (h : Heap) (R : List Nat), reachCell f h c = some R →
      ∀ a ∈ R, a < h.size := by
  intro c
  induction c with
  | nil =>
    intro h R hr
    simp only [reachCell] at hr
    injection hr with hr
    subst hr
    simp
  | cons kv rest ihc =>
    intro h R hr
    obtain ⟨k, v⟩ := kv
    simp only [reachCell] at hr
    cases hrv : reachV f h v with
    | none =>
      rw [hrv] at hr
      simp at hr
    | some R1 =>
      rw [hrv] at hr
      cases hrc : reachCell f h rest with
      | none =>
        rw [hrc] at hr
        simp at hr
      | some R2 =>
        rw [hrc] at hr
        injection hr with hr
        subst hr
        intro a ha
        rcases List.mem_append.mp ha with ha | ha
        · exact hV h v R1 hrv a ha
        · exact ihc h R2 hrc a ha

/-- Every reachable address is an allocated one. -/
theorem reach_bound :
    ∀ f : Nat,
      (∀ (h : Heap) (v : PyVal) (R : List Nat), reachV f h v = some R →
        ∀ a ∈ R, a < h.size) ∧
      (∀ (c : Cell) (h : Heap) (R : List Nat), reachCell f h c = some R →
        ∀ a ∈ R, a < h.size) := by
  intro f
  induction f with
  | zero =>
    have hV : ∀ (h : Heap) (v : PyVal) (R : List Nat), reachV 0 h v = some R →
        ∀ a ∈ R, a < h.size := by
      intro h v R hr
      cases v with
      | str s =>
        simp only [reachV] at hr
        injection hr with hr
        subst hr
        simp
      | addr a => simp [reachV] at hr
    exact ⟨hV, reachCell_bound_of 0 hV⟩
  | succ f ihf =>
    have hV : ∀ (h : Heap) (v : PyVal) (R : List Nat),
        reachV (f + 1) h v = some R → ∀ a ∈ R, a < h.size := by
      intro h v R hr
      cases v with
      | str s =>
        simp only [reachV] at hr
        injection hr with hr
        subst hr
        simp
      | addr a =>
        cases hg : h.get? a with
        | none => simp [reachV, hg] at hr
        | some cell =>
          cases hrc : reachCell f h cell with
          | none => simp [reachV, hg, hrc] at hr
          | some Rc =>
            simp only [reachV, hg, hrc, Option.some.injEq] at hr
            subst hr
            intro x hx
            rcases List.mem_cons.mp hx with rfl | hx
            · exact Heap.lt_size_of_get? hg
            · exact ihf.2 cell h Rc hrc x hx
    exact ⟨hV, reachCell_bound_of (f + 1) hV⟩

/-- Rebuild a heap from its cell list (structure eta, as an equation
usable for rewriting). -/
theorem Heap.eta_append {h1 h : Heap} {ext : List Cell}
    (he : h1.cells = h.cells ++ ext) : h1 = ⟨h.cells ++ ext⟩ := by
  cases h1
  simpa using he

/-- A value readable within the budget can be deep-copied within the same
budget, and the copy only appends cells (helper at one budget). -/
theorem read_to_copy_cell_of (f : Nat)
    (hV : ∀ (h : Heap) (v : PyVal) (tr : PTree), readV f h v = some tr →
      ∃ out, copyV f h v = some out ∧ ∃ ext, out.1.cells = h.cells ++ ext) :
    ∀ (c : Cell) (h : Heap) (tr : PTree), readCell f h c = some tr →
      ∃ out, copyCell f h c = some out ∧ ∃ ext, out.1.cells = h.cells ++ ext := by
  intro c
  induction c with
  | nil =>
    intro h tr _
    exact ⟨(h, []), by simp [copyCell], [], by simp⟩
  | cons kv rest ihc =>
    intro h tr hr
    obtain ⟨k, v⟩ := kv
    simp only [readCell] at hr
    cases hrv : readV f h v with
    | none =>
      rw [hrv] at hr
      simp at hr
    | some tv =>
      rw [hrv] at hr
      cases hrc : readCell f h rest with
      | none =>
        rw [hrc] at hr
        simp at hr
      | some trr =>
        obtain ⟨⟨h1, v1⟩, hcv, ext1, hext1⟩ := hV h v tv hrv
        dsimp only at hext1
        have hrest1 : readCell f h1 rest = some trr := by
          rw [Heap.eta_append hext1]
          exact (read_extend ext1 f).2 rest h trr hrc
        obtain ⟨⟨h2, rest1⟩, hcc, ext2, hext2⟩ := ihc h1 trr hrest1
        refine ⟨(h2, (k, v1) :: rest1), ?_, ext1 ++ ext2, ?_⟩
        · simp [copyCell, hcv, hcc]
        · rw [hext2, hext1, List.append_assoc]

/-- A value readable within the budget can be deep-copied within the same
budget, and the copy only appends cells. -/
theorem read_to_copy :
    ∀ f : Nat,
      (∀ (h : Heap) (v : PyVal) (tr : PTree), readV f h v = some tr →
        ∃ out, copyV f h v = some out ∧ ∃ ext, out.1.cells = h.cells ++ ext) ∧
      (∀ (c : Cell) (h : Heap) (tr : PTree), readCell f h c = some tr →
        ∃ out, copyCell f h c = some out ∧ ∃ ext, out.1.cells = h.cells ++ ext) := by
  intro f
  induction f with
  | zero =>
    have hV : ∀ (h : Heap) (v : PyVal) (tr : PTree), readV 0 h v = some tr →
        ∃ out, copyV 0 h v = some out ∧ ∃ ext, out.1.cells = h.cells ++ ext := by
      intro h v tr hr
      cases v with
      | str s => exact ⟨(h, .str s), by simp [copyV], [], by simp⟩
      | addr a => simp [readV] at hr
    exact ⟨hV, read_to_copy_cell_of 0 hV⟩
  | succ f ihf =>
    have hV : ∀ (h : Heap) (v : PyVal) (tr : PTree),
        readV (f + 1) h v = some tr →
        ∃ out, copyV (f + 1) h v = some out ∧
          ∃ ext, out.1.cells = h.cells ++ ext := by
      intro h v tr hr
      cases v with
      | str s => exact ⟨(h, .str s), by simp [copyV], [], by simp⟩
      | addr a =>
        cases hg : h.get? a with
        | none => simp [readV, hg] at hr
        | some cell =>
          simp only [readV, hg] at hr
          obtain ⟨⟨h1, cell1⟩, hcc, ext1, hext1⟩ := ihf.2 cell h tr hr
          dsimp only at hext1
          refine ⟨(⟨h1.cells ++ [cell1]⟩, .addr h1.cells.length), ?_,
            ext1 ++ [cell1], ?_⟩
          · simp [copyV, hg, hcc, Heap.alloc]
          · dsimp only
            rw [hext1, List.append_assoc]
    exact ⟨hV, read_to_copy_cell_of (f + 1) hV⟩

/-- Properties of a successful deep copy (helper at one budget, given the
value-level statement at the same budget): the heap is only extended, the
copy reads back to the same tree, and the copy's footprint lies entirely
in the freshly appended region. -/
theorem copy_props_cell_of (f : Nat)
    (hV : ∀ (h : Heap) (v : PyVal) (h2 : Heap) (v2 : PyVal),
      copyV f h v = some (h2, v2) →
        (∃ ext, h2.cells = h.cells ++ ext) ∧
        (∀ tr, readV f h v = some tr → readV f h2 v2 = some tr) ∧
        (∃ R, reachV f h2 v2 = some R ∧
          ∀ a ∈ R, h.size ≤ a ∧ a < h2.size)) :
    ∀ (c : Cell) (h : Heap) (h2 : Heap) (c2 : Cell),
      copyCell f h c = some (h2, c2) →
        (∃ ext, h2.cells = h.cells ++ ext) ∧
        (∀ tr, readCell f h c = some tr → readCell f h2 c2 = some tr) ∧
        (∃ R, reachCell f h2 c2 = some R ∧
          ∀ a ∈ R, h.size ≤ a ∧ a < h2.size) := by
  intro c
  induction c with
  | nil =>
    intro h h2 c2 hcc
    simp only [copyCell, Option.some.injEq, Prod.mk.injEq] at hcc
    obtain ⟨rfl, rfl⟩ := hcc
    refine ⟨⟨[], by simp⟩, fun tr hr => hr, ⟨[], by simp [reachCell], ?_⟩⟩
    intro a ha
    simp at ha
  | cons kv rest ihc =>
    obtain ⟨k, v⟩ := kv
    intro h h2 c2 hcc
    cases hcv : copyV f h v with
    | none => simp [copyCell, hcv] at hcc
    | some p1 =>
      obtain ⟨h1, v1⟩ := p1
      cases hcr : copyCell f h1 rest with
      | none => simp [copyCell, hcv, hcr] at hcc
      | some p2 =>
        obtain ⟨h2', rest1⟩ := p2
        simp only [copyCell, hcv, hcr, Option.some.injEq, Prod.mk.injEq] at hcc
        obtain ⟨rfl, rfl⟩ := hcc
        obtain ⟨⟨ext1, hext1⟩, hread1, Rv, hRv, hbv⟩ := hV h v h1 v1 hcv
        obtain ⟨⟨ext2, hext2⟩, hread2, Rr, hRr, hbr⟩ := ihc h1 h2' rest1 hcr
        have hs01 : h.size ≤ h1.size := by
          unfold Heap.size
          rw [hext1]
          simp
        have hs12 : h1.size ≤ h2'.size := by
          unfold Heap.size
          rw [hext2]
          simp
        refine ⟨⟨ext1 ++ ext2, by rw [hext2, hext1, List.append_assoc]⟩, ?_, ?_⟩
        · intro tr hr
          simp only [readCell] at hr ⊢
          cases hrv : readV f h v with
          | none =>
            rw [hrv] at hr
            simp at hr
          | some tv =>
            rw [hrv] at hr
            cases hrc : readCell f h rest with
            | none =>
              rw [hrc] at hr
              simp at hr
            | some trr =>
              rw [hrc] at hr
              have h2v : readV f h2' v1 = some tv := by
                rw [Heap.eta_append hext2]
                exact (read_extend ext2 f).1 h1 v1 tv (hread1 tv hrv)
              have hrr1 : readCell f h1 rest = some trr := by
                rw [Heap.eta_append hext1]
                exact (read_extend ext1 f).2 rest h trr hrc
              rw [h2v, hread2 trr hrr1]
              exact hr
        · have hRv2 : reachV f h2' v1 = some Rv := by
            rw [Heap.eta_append hext2]
            exact (reach_extend ext2 f).1 h1 v1 Rv hRv
          refine ⟨Rv ++ Rr, by simp only [reachCell, hRv2, hRr], ?_⟩
          intro a ha
          rcases List.mem_append.mp ha with ha | ha
          · exact ⟨(hbv a ha).1, lt_of_lt_of_le (hbv a ha).2 hs12⟩
          · exact ⟨le_trans hs01 (hbr a ha).1, (hbr a ha).2⟩

/-- Properties of a successful deep copy: the heap is only extended, the
copy reads back to the same tree as the original, and the copy's
footprint lies entirely in the freshly appended region. -/
theorem copy_props :
    ∀ f : Nat,
      (∀ (h : Heap) (v : PyVal) (h2 : Heap) (v2 : PyVal),
        copyV f h v = some (h2, v2) →
          (∃ ext, h2.cells = h.cells ++ ext) ∧
          (∀ tr, readV f h v = some tr → readV f h2 v2 = some tr) ∧
          (∃ R, reachV f h2 v2 = some R ∧
            ∀ a ∈ R, h.size ≤ a ∧ a < h2.size)) ∧
      (∀ (c : Cell) (h : Heap) (h2 : Heap) (c2 : Cell),
        copyCell f h c = some (h2, c2) →
          (∃ ext, h2.cells = h.cells ++ ext) ∧
          (∀ tr, readCell f h c = some tr → readCell f h2 c2 = some tr) ∧
          (∃ R, reachCell f h2 c2 = some R ∧
            ∀ a ∈ R, h.size ≤ a ∧ a < h2.size)) := by
  intro f
  induction f with
  | zero =>
    have hV : ∀ (h : Heap) (v : PyVal) (h2 : Heap) (v2 : PyVal),
        copyV 0 h v = some (h2, v2) →
          (∃ ext, h2.cells = h.cells ++ ext) ∧
          (∀ tr, readV 0 h v = some tr → readV 0 h2 v2 = some tr) ∧
          (∃ R, reachV 0 h2 v2 = some R ∧
            ∀ a ∈ R, h.size ≤ a ∧ a < h2.size) := by
      intro h v h2 v2 hcv
      cases v with
      | str s =>
        simp only [copyV, Option.some.injEq, Prod.mk.injEq] at hcv
        obtain ⟨rfl, rfl⟩ := hcv
        refine ⟨⟨[], by simp⟩, fun tr hr => hr, ⟨[], by simp [reachV], ?_⟩⟩
        intro a ha
        simp at ha
      | addr a => simp [copyV] at hcv
    exact ⟨hV, copy_props_cell_of 0 hV⟩
  | succ f ihf =>
    have hV : ∀ (h : Heap) (v : PyVal) (h2 : Heap) (v2 : PyVal),
        copyV (f + 1) h v = some (h2, v2) →
          (∃ ext, h2.cells = h.cells ++ ext) ∧
          (∀ tr, readV (f + 1) h v = some tr → readV (f + 1) h2 v2 = some tr) ∧
          (∃ R, reachV (f + 1) h2 v2 = some R ∧
            ∀ a ∈ R, h.size ≤ a ∧ a < h2.size) := by
      intro h v h2 v2 hcv
      cases v with
      | str s =>
        simp only [copyV, Option.some.injEq, Prod.mk.injEq] at hcv
        obtain ⟨rfl, rfl⟩ := hcv
        refine ⟨⟨[], by simp⟩, fun tr hr => hr, ⟨[], by simp [reachV], ?_⟩⟩
        intro a ha
        simp at ha
      | addr a =>
        cases hg : h.get? a with
        | none => simp [copyV, hg] at hcv
        | some cell =>
          cases hcc : copyCell f h cell with
          | none => simp [copyV, hg, hcc] at hcv
          | some p =>
            obtain ⟨h1, cell1⟩ := p
            simp only [copyV, hg, hcc, Heap.alloc, Option.some.injEq,
              Prod.mk.injEq] at hcv
            obtain ⟨rfl, rfl⟩ := hcv
            obtain ⟨⟨ext1, hext1⟩, hread1, Rc, hRc, hbc⟩ := ihf.2 cell h h1 cell1 hcc
            have hs01 : h.size ≤ h1.size := by
              unfold Heap.size
              rw [hext1]
              simp
            have hgnew : (Heap.mk (h1.cells ++ [cell1])).get? h1.cells.length =
                some cell1 := by
              unfold Heap.get?
              simp
            have hcell2 : ∀ tr, readCell f h1 cell1 = some tr →
                readCell f ⟨h1.cells ++ [cell1]⟩ cell1 = some tr :=
              fun tr htr => (read_extend [cell1] f).2 cell1 h1 tr htr
            refine ⟨⟨ext1 ++ [cell1], by rw [hext1, List.append_assoc]⟩, ?_, ?_⟩
            · intro tr hr
              simp only [readV, hg] at hr
              simp only [readV, hgnew]
              exact hcell2 tr (hread1 tr hr)
            · have hRc2 : reachCell f ⟨h1.cells ++ [cell1]⟩ cell1 = some Rc :=
                (reach_extend [cell1] f).2 cell1 h1 Rc hRc
              refine ⟨h1.cells.length :: Rc, ?_, ?_⟩
              · simp only [reachV, hgnew, hRc2]
              · have hsz1 : h1.size = h1.cells.length := rfl
                have hsz2 : (Heap.mk (h1.cells ++ [cell1])).size =
                    h1.cells.length + 1 := by
                  unfold Heap.size
                  simp
                intro x hx
                rcases List.mem_cons.mp hx with rfl | hx
                · omega
                · have := hbc x hx
                  omega
    exact ⟨hV, copy_props_cell_of (f + 1) hV⟩

/-- Mutating a cell outside a footprint does not change what the footprint
owner reads (helper at one budget). -/
theorem mut_indep_cell_of (f : Nat)
    (hV : ∀ (h : Heap) (v : PyVal) (R : List Nat), reachV f h v = some R →
      ∀ b, b ∉ R → ∀ c, readV f (h.setCell b c) v = readV f h v) :
    ∀ (cl : Cell) (h : Heap) (R : List Nat), reachCell f h cl = some R →
      ∀ b, b ∉ R → ∀ c, readCell f (h.setCell b c) cl = readCell f h cl := by
  intro cl
  induction cl with
  | nil =>
    intro h R _ b _ c
    simp [readCell]
  | cons kv rest ihc =>
    intro h R hr b hb c
    obtain ⟨k, v⟩ := kv
    simp only [reachCell] at hr
    cases hrv : reachV f h v with
    | none =>
      rw [hrv] at hr
      simp at hr
    | some Rv =>
      rw [hrv] at hr
      cases hrc : reachCell f h rest with
      | none =>
        rw [hrc] at hr
        simp at hr
      | some Rr =>
        rw [hrc] at hr
        injection hr with hr
        subst hr
        have hbv : b ∉ Rv := fun hx => hb (List.mem_append.mpr (Or.inl hx))
        have hbr : b ∉ Rr := fun hx => hb (List.mem_append.mpr (Or.inr hx))
        simp only [readCell, hV h v Rv hrv b hbv c, ihc h Rr hrc b hbr c]

/-- Mutating a cell outside a footprint does not change what the footprint
owner reads. -/
theorem mut_indep :
    ∀ f : Nat,
      (∀ (h : Heap) (v : PyVal) (R : List Nat), reachV f h v = some R →
        ∀ b, b ∉ R → ∀ c, readV f (h.setCell b c) v = readV f h v) ∧
      (∀ (cl : Cell) (h : Heap) (R : List Nat), reachCell f h cl = some R →
        ∀ b, b ∉ R → ∀ c, readCell f (h.setCell b c) cl = readCell f h cl) := by
  intro f
  induction f with
  | zero =>
    have hV : ∀ (h : Heap) (v : PyVal) (R : List Nat), reachV 0 h v = some R →
        ∀ b, b ∉ R → ∀ c, readV 0 (h.setCell b c) v = readV 0 h v := by
      intro h v R hr b _ c
      cases v with
      | str s => simp [readV]
      | addr a => simp [reachV] at hr
    exact ⟨hV, mut_indep_cell_of 0 hV⟩
  | succ f ihf =>
    have hV : ∀ (h : Heap) (v : PyVal) (R : List Nat),
        reachV (f + 1) h v = some R →
        ∀ b, b ∉ R → ∀ c, readV (f + 1) (h.setCell b c) v = readV (f + 1) h v := by
      intro h v R hr b hb c
      cases v with
      | str s => simp [readV]
      | addr a =>
        cases hg : h.get? a with
        | none => simp [reachV, hg] at hr
        | some cell =>
          cases hrc : reachCell f h cell with
          | none => simp [reachV, hg, hrc] at hr
          | some Rc =>
            simp only [reachV, hg, hrc, Option.some.injEq] at hr
            subst hr
            have hba : b ≠ a := fun he => hb (he ▸ List.mem_cons_self _ _)
            have hbRc : b ∉ Rc := fun hx => hb (List.mem_cons_of_mem _ hx)
            simp only [readV, Heap.get?_setCell_ne h b c a hba, hg,
              ihf.2 cell h Rc hrc b hbRc c]
    exact ⟨hV, mut_indep_cell_of (f + 1) hV⟩

/-- A readable value has a (computed) footprint (helper at one budget). -/
theorem read_to_reach_cell_of (f : Nat)
    (hV : ∀ (h : Heap) (v : PyVal) (tr : PTree), readV f h v = some tr →
      ∃ R, reachV f h v = some R) :
    ∀ (cl : Cell) (h : Heap) (tr : PTree), readCell f h cl = some tr →
      ∃ R, reachCell f h cl = some R := by
  intro cl
  induction cl with
  | nil =>
    intro h tr _
    exact ⟨[], by simp [reachCell]⟩
  | cons kv rest ihc =>
    intro h tr hr
    obtain ⟨k, v⟩ := kv
    simp only [readCell] at hr
    cases hrv : readV f h v with
    | none =>
      rw [hrv] at hr
      simp at hr
    | some tv =>
      rw [hrv] at hr
      cases hrc : readCell f h rest with
      | none =>
        rw [hrc] at hr
        simp at hr
      | some trr =>
        obtain ⟨Rv, hRv⟩ := hV h v tv hrv
        obtain ⟨Rr, hRr⟩ := ihc h trr hrc
        exact ⟨Rv ++ Rr, by simp [reachCell, hRv, hRr]⟩

/-- A readable value has a (computed) footprint. -/
theorem read_to_reach :
    ∀ f : Nat,
      (∀ (h : Heap) (v : PyVal) (tr : PTree), readV f h v = some tr →
        ∃ R, reachV f h v = some R) ∧
      (∀ (cl : Cell) (h : Heap) (tr : PTree), readCell f h cl = some tr →
        ∃ R, reachCell f h cl = some R) := by
  intro f
  induction f with
  | zero =>
    have hV : ∀ (h : Heap) (v : PyVal) (tr : PTree), readV 0 h v = some tr →
        ∃ R, reachV 0 h v = some R := by
      intro h v tr hr
      cases v with
      | str s => exact ⟨[], by simp [reachV]⟩
      | addr a => simp [readV] at hr
    exact ⟨hV, read_to_reach_cell_of 0 hV⟩
  | succ f ihf =>
    have hV : ∀ (h : Heap) (v : PyVal) (tr : PTree),
        readV (f + 1) h v = some tr → ∃ R, reachV (f + 1) h v = some R := by
      intro h v tr hr
      cases v with
      | str s => exact ⟨[], by simp [reachV]⟩
      | addr a =>
        cases hg : h.get? a with
        | none => simp [readV, hg] at hr
        | some cell =>
          simp only [readV, hg] at hr
          obtain ⟨Rc, hRc⟩ := ihf.2 cell h tr hr
          exact ⟨a :: Rc, by simp [reachV, hg, hRc]⟩
    exact ⟨hV, read_to_reach_cell_of (f + 1) hV⟩

/-- Claim C8: for every vault binding state and nickname present in the
secrets table (whose stored entry is tree-shaped within the given
budget), `get_secrets` returns a deep copy: two successive calls succeed
and both returned values read back to the very tree stored internally
(structural equality), their footprints are disjoint from each other and
from the internal entry's footprint, and mutating any cell reachable from
one returned value changes neither what the other returned value nor what
the internal entry reads back to. -/
theorem get_secrets_deep_copy :
    ∀ (vs : VaultState) (n : String) (v0 : PyVal) (fuel : Nat) (t0 : PTree),
      lookupA vs.secrets n = some v0 →
      readV fuel vs.heap v0 = some t0 →
      ∃ h1 v1 h2 v2 R1 R2,
        get_secrets vs fuel n = .ok h1 v1 ∧
        get_secrets ⟨vs.filepath, h1, vs.secrets⟩ fuel n = .ok h2 v2 ∧
        readV fuel h2 v1 = some t0 ∧
        readV fuel h2 v2 = some t0 ∧
        readV fuel h2 v0 = some t0 ∧
        reachV fuel h2 v1 = some R1 ∧
        reachV fuel h2 v2 = some R2 ∧
        (∀ b ∈ R2, ∀ c, readV fuel (h2.setCell b c) v1 = some t0 ∧
          readV fuel (h2.setCell b c) v0 = some t0) ∧
        (∀ b ∈ R1, ∀ c, readV fuel (h2.setCell b c) v2 = some t0 ∧
          readV fuel (h2.setCell b c) v0 = some t0) := by
  intro vs n v0 fuel t0 hlook hread
  obtain ⟨⟨h1, v1⟩, hcv1, ext1, hext1⟩ := (read_to_copy fuel).1 vs.heap v0 t0 hread
  dsimp only at hext1
  obtain ⟨_, hpres1, R1, hR1, hb1⟩ := (copy_props fuel).1 vs.heap v0 h1 v1 hcv1
  have hread1 : readV fuel h1 v0 = some t0 := by
    rw [Heap.eta_append hext1]
    exact (read_extend ext1 fuel).1 vs.heap v0 t0 hread
  obtain ⟨⟨h2, v2⟩, hcv2, ext2, hext2⟩ := (read_to_copy fuel).1 h1 v0 t0 hread1
  dsimp only at hext2
  obtain ⟨_, hpres2, R2, hR2, hb2⟩ := (copy_props fuel).1 h1 v0 h2 v2 hcv2
  have hv1r2 : readV fuel h2 v1 = some t0 := by
    rw [Heap.eta_append hext2]
    exact (read_extend ext2 fuel).1 h1 v1 t0 (hpres1 t0 hread)
  have hv2r : readV fuel h2 v2 = some t0 := hpres2 t0 hread1
  have hv0r2 : readV fuel h2 v0 = some t0 := by
    rw [Heap.eta_append hext2]
    exact (read_extend ext2 fuel).1 h1 v0 t0 hread1
  have hR1h2 : reachV fuel h2 v1 = some R1 := by
    rw [Heap.eta_append hext2]
    exact (reach_extend ext2 fuel).1 h1 v1 R1 hR1
  obtain ⟨R0, hR0⟩ := (read_to_reach fuel).1 vs.heap v0 t0 hread
  have hR0b : ∀ a ∈ R0, a < vs.heap.size := (reach_bound fuel).1 vs.heap v0 R0 hR0
  have hR0h1 : reachV fuel h1 v0 = some R0 := by
    rw [Heap.eta_append hext1]
    exact (reach_extend ext1 fuel).1 vs.heap v0 R0 hR0
  have hR0h2 : reachV fuel h2 v0 = some R0 := by
    rw [Heap.eta_append hext2]
    exact (reach_extend ext2 fuel).1 h1 v0 R0 hR0h1
  have hs01 : vs.heap.size ≤ h1.size := by
    unfold Heap.size
    rw [hext1]
    simp
  refine ⟨h1, v1, h2, v2, R1, R2, ?_, ?_, hv1r2, hv2r, hv0r2, hR1h2, hR2, ?_, ?_⟩
  · simp [get_secrets, hlook, hcv1]
  · simp [get_secrets, hlook, hcv2]
  · intro b hb c
    have hbge : h1.size ≤ b := (hb2 b hb).1
    have hbnotR1 : b ∉ R1 := fun hx => by
      have := (hb1 b hx).2
      omega
    have hbnotR0 : b ∉ R0 := fun hx => by
      have := hR0b b hx
      omega
    exact ⟨by rw [(mut_indep fuel).1 h2 v1 R1 hR1h2 b hbnotR1 c]; exact hv1r2,
      by rw [(mut_indep fuel).1 h2 v0 R0 hR0h2 b hbnotR0 c]; exact hv0r2⟩
  · intro b hb c
    have hblt : b < h1.size := (hb1 b hb).2
    have hbnotR2 : b ∉ R2 := fun hx => by
      have := (hb2 b hx).1
      omega
    have hbnotR0 : b ∉ R0 := fun hx => by
      have h1b := (hb1 b hb).1
      have := hR0b b hx
      omega
    exact ⟨by rw [(mut_indep fuel).1 h2 v2 R2 hR2 b hbnotR2 c]; exact hv2r,
      by rw [(mut_indep fuel).1 h2 v0 R0 hR0h2 b hbnotR0 c]; exact hv0r2⟩

/-- Witness for C8 on the concrete vault with entry `srv1 = {foo: bar}`. -/
theorem get_secrets_deep_copy_witness :
    ∃ h1 v1 h2 v2 R1 R2,
      get_secrets exVault 2 "srv1" = .ok h1 v1 ∧
      get_secrets ⟨exVault.filepath, h1, exVault.secrets⟩ 2 "srv1" = .ok h2 v2 ∧
      readV 2 h2 v1 = some fooBarTree ∧
      readV 2 h2 v2 = some fooBarTree ∧
      readV 2 h2 (.addr 0) = some fooBarTree ∧
      reachV 2 h2 v1 = some R1 ∧
      reachV 2 h2 v2 = some R2 ∧
      (∀ b ∈ R2, ∀ c, readV 2 (h2.setCell b c) v1 = some fooBarTree ∧
        readV 2 (h2.setCell b c) (.addr 0) = some fooBarTree) ∧
      (∀ b ∈ R1, ∀ c, readV 2 (h2.setCell b c) v2 = some fooBarTree ∧
        readV 2 (h2.setCell b c) (.addr 0) = some fooBarTree) :=
  get_secrets_deep_copy exVault "srv1" (.addr 0) 2 fooBarTree rfl
    (by simp [readV, readCell, exVault, Heap.get?, fooBarTree])

end EasyServer
